import Mathlib

/-!
Shallow embedding of `src/strokes/selection_comp.rs` from the rnote
repository: the selection, transform, duplication and export operations of
the strokes state. Coordinates are modelled with exact rational arithmetic;
component stores and the stroke registry are modelled as association lists
keyed by natural numbers (the slotmap keys).
-/

namespace Rnote

/-- A 2D vector, modelling `na::Vector2<f64>`. -/
structure Vec2 where
  x : ℚ
  y : ℚ
deriving DecidableEq

/-- Componentwise vector sum. -/
def Vec2.add (a b : Vec2) : Vec2 := ⟨a.x + b.x, a.y + b.y⟩

/-- Axis-aligned bounding box, modelling `p2d::bounding_volume::AABB`. -/
structure AABB where
  mins : Vec2
  maxs : Vec2
deriving DecidableEq

/-- `p2d` AABB containment test `self.contains(other)`: `other` lies fully
inside `self`, componentwise. -/
def AABB.contains (a b : AABB) : Bool :=
  decide (a.mins.x ≤ b.mins.x) && decide (a.mins.y ≤ b.mins.y) &&
    decide (b.maxs.x ≤ a.maxs.x) && decide (b.maxs.y ≤ a.maxs.y)

/-- `p2d` AABB intersection test `self.intersects(other)`. -/
def AABB.intersects (a b : AABB) : Bool :=
  decide (a.mins.x ≤ b.maxs.x) && decide (a.mins.y ≤ b.maxs.y) &&
    decide (a.maxs.x ≥ b.mins.x) && decide (a.maxs.y ≥ b.mins.y)

/-- `p2d` AABB merge (`BoundingVolume::merge`): componentwise min of the mins
and max of the maxs. -/
def AABB.merge (a b : AABB) : AABB :=
  ⟨⟨min a.mins.x b.mins.x, min a.mins.y b.mins.y⟩,
   ⟨max a.maxs.x b.maxs.x, max a.maxs.y b.maxs.y⟩⟩

/-- Modelled from the spec: `geometry::aabb_translate` (defined outside this
module) shifts both corners of an AABB by an offset vector. -/
def aabb_translate (b : AABB) (offset : Vec2) : AABB :=
  ⟨b.mins.add offset, b.maxs.add offset⟩

/-- The closed set of stroke variants (`StrokeStyle`). Only the data the
selection engine observes is modelled: the bounding box, and for the
free-form kinds (marker, brush) the list of hitbox sub-boxes. -/
inductive StrokeStyle where
  | markerStroke (bounds : AABB) (hitbox : List AABB)
  | brushStroke (bounds : AABB) (hitbox : List AABB)
  | shapeStroke (bounds : AABB)
  | vectorImage (bounds : AABB)
  | bitmapImage (bounds : AABB)
deriving DecidableEq

/-- The `bounds()` accessor of a stroke. -/
def StrokeStyle.bounds : StrokeStyle → AABB
  | .markerStroke b _ => b
  | .brushStroke b _ => b
  | .shapeStroke b => b
  | .vectorImage b => b
  | .bitmapImage b => b

/-- The hitbox sub-boxes of a stroke; empty for the kinds without hitboxes. -/
def StrokeStyle.hitbox : StrokeStyle → List AABB
  | .markerStroke _ hb => hb
  | .brushStroke _ hb => hb
  | _ => []

/-- Whether the stroke kind is free-form (marker or brush), i.e. carries
hitboxes. -/
def StrokeStyle.isFreeForm : StrokeStyle → Bool
  | .markerStroke _ _ => true
  | .brushStroke _ _ => true
  | _ => false

/-- Modelled from the spec: the per-stroke geometry kernel `translate(offset)`
(external collaborator) rigidly shifts all internal geometry, hence the
bounds and every hitbox sub-box, by the offset. -/
def StrokeStyle.translate : StrokeStyle → Vec2 → StrokeStyle
  | .markerStroke b hb, off => .markerStroke (aabb_translate b off) (hb.map (aabb_translate · off))
  | .brushStroke b hb, off => .brushStroke (aabb_translate b off) (hb.map (aabb_translate · off))
  | .shapeStroke b, off => .shapeStroke (aabb_translate b off)
  | .vectorImage b, off => .vectorImage (aabb_translate b off)
  | .bitmapImage b, off => .bitmapImage (aabb_translate b off)

/-- Modelled from the spec: the per-stroke geometry kernel
`resize(new_bounds)` (external collaborator) rewrites the internal geometry
to fit the new AABB; the visible contract is that the stroke's bounds become
`new_bounds`. The internal hitbox refit is left to the external kernel and is
modelled as unchanged here. -/
def StrokeStyle.resize : StrokeStyle → AABB → StrokeStyle
  | .markerStroke _ hb, nb => .markerStroke nb hb
  | .brushStroke _ hb, nb => .brushStroke nb hb
  | .shapeStroke _, nb => .shapeStroke nb
  | .vectorImage _, nb => .vectorImage nb
  | .bitmapImage _, nb => .bitmapImage nb

/-- `SelectionComponent { selected: bool }`. -/
structure SelectionComponent where
  selected : Bool
deriving DecidableEq

/-- `SelectionComponent::default()` has `selected = false`. -/
def SelectionComponent.default : SelectionComponent := ⟨false⟩

/-- `RenderComponent { render: bool }` (only the visibility flag is observed
by this module; the cached render nodes are external). Per the spec lifecycle
a fresh entity is renderable, so `default` has `render = true`. -/
structure RenderComponent where
  render : Bool
deriving DecidableEq

/-- `RenderComponent::default()`: renderable. -/
def RenderComponent.default : RenderComponent := ⟨true⟩

/-- `TrashComponent { trashed: bool }`. -/
structure TrashComponent where
  trashed : Bool
deriving DecidableEq

/-- `TrashComponent::default()`: not trashed. -/
def TrashComponent.default : TrashComponent := ⟨false⟩

/-- Modelled from the spec: the selector produced by the gesture recognizer;
the selection engine only reads its optional bounds. -/
structure Selector where
  bounds : Option AABB

/-- First-match lookup in an association list, modelling `get` on the
sparse component stores and on the stroke registry. -/
def getComp {α : Type} : List (Nat × α) → Nat → Option α
  | [], _ => none
  | (k', v) :: rest, k => if k' = k then some v else getComp rest k

/-- In-place update through `get_mut`: every entry with the given key is
replaced; an absent key leaves the list unchanged. -/
def setComp {α : Type} (m : List (Nat × α)) (k : Nat) (v : α) : List (Nat × α) :=
  m.map (fun p => if p.1 = k then (p.1, v) else p)

/-- `insert` on a secondary map: replaces the value if the key is present,
otherwise adds a new entry. -/
def insertComp {α : Type} (m : List (Nat × α)) (k : Nat) (v : α) : List (Nat × α) :=
  if (getComp m k).isSome then setComp m k v else m ++ [(k, v)]

/-- Mutation through `get_mut`: applies `f` to the entries with the given
key; an absent key leaves the list unchanged. -/
def mapAt {α : Type} (m : List (Nat × α)) (k : Nat) (f : α → α) : List (Nat × α) :=
  m.map (fun p => if p.1 = k then (p.1, f p.2) else p)

/-- The keys of an association list. -/
def keysOf {α : Type} (m : List (Nat × α)) : List Nat := m.map Prod.fst

/-- The strokes state: the stroke registry, the sparse component stores and
the cached aggregate selection bounds. -/
structure StrokesState where
  strokes : List (Nat × StrokeStyle)
  selection_components : List (Nat × SelectionComponent)
  render_components : List (Nat × RenderComponent)
  trash_components : List (Nat × TrashComponent)
  selection_bounds : Option AABB
deriving DecidableEq

namespace StrokesState

/-- A key strictly larger than every key of every store, used to model the
fresh keys handed out by the slotmap on insertion. -/
def maxKey (s : StrokesState) : Nat :=
  ((keysOf s.strokes ++ keysOf s.selection_components ++
      keysOf s.render_components ++ keysOf s.trash_components).foldr max 0)

/-- `can_select`: a stroke supports selection iff it has a selection
component. -/
def can_select (s : StrokesState) (k : Nat) : Bool :=
  (getComp s.selection_components k).isSome

/-- `selected(key)`: the selection flag, `none` if the entity has no
selection component (logged and skipped in the source). -/
def selected (s : StrokesState) (k : Nat) : Option Bool :=
  (getComp s.selection_components k).map SelectionComponent.selected

/-- Modelled from the spec: the `trashed(key)` accessor (defined in the
trash-component module, outside this file) reads the `trashed` flag of the
entity's trash component, `none` when the component is absent. -/
def trashed (s : StrokesState) (k : Nat) : Option Bool :=
  (getComp s.trash_components k).map TrashComponent.trashed

/-- `selection_keys()`: all keys whose selection component has
`selected = true`, in component-store order. -/
def selection_keys (s : StrokesState) : List Nat :=
  s.selection_components.filterMap (fun p => if p.2.selected then some p.1 else none)

/-- `selection_len()`. -/
def selection_len (s : StrokesState) : Nat := s.selection_keys.length

/-- Folds `merge` over a list of AABBs; `none` for the empty list. -/
def unionList : List AABB → Option AABB
  | [] => none
  | b :: bs => some (bs.foldl AABB.merge b)

/-- Modelled from the spec: `gen_bounds(keys)` (defined outside this module)
computes the aggregate AABB of the strokes at the given keys. Per the spec
the aggregate selection bounds are the union over selected AND not-trashed
entities, so trashed strokes contribute nothing; the result is `none` when no
stroke contributes. -/
def gen_bounds (s : StrokesState) (keys : List Nat) : Option AABB :=
  unionList (keys.filterMap (fun k =>
    match getComp s.strokes k with
    | some st => if s.trashed k ≠ some true then some st.bounds else none
    | none => none))

/-- `update_selection_bounds()`: full recompute of the cached aggregate
selection bounds from the current selection keys. -/
def update_selection_bounds (s : StrokesState) : StrokesState :=
  { s with selection_bounds := s.gen_bounds s.selection_keys }

/-- Modelled from the spec: the render-state refresh hook for the whole
selection is a fire-and-forget notification to the rendering layer; it has
no observable effect on the state modelled here. -/
def update_rendering_for_selection (s : StrokesState) : StrokesState := s

/-- Modelled from the spec: the per-stroke render-state refresh hook; no
observable effect on the state modelled here. -/
def update_rendering_for_stroke (s : StrokesState) (_k : Nat) : StrokesState := s

/-- `set_selected(key, selected)`: update the flag through `get_mut` and
recompute the bounds cache; a missing selection component is logged and the
whole call is a no-op. -/
def set_selected (s : StrokesState) (k : Nat) (sel : Bool) : StrokesState :=
  if (getComp s.selection_components k).isSome then
    update_selection_bounds
      { s with selection_components := setComp s.selection_components k ⟨sel⟩ }
  else s

/-- `deselect()`: clear every selection flag and set the bounds cache to
`none`. -/
def deselect (s : StrokesState) : StrokesState :=
  { s with
    selection_components := s.selection_components.map (fun p => (p.1, (⟨false⟩ : SelectionComponent))),
    selection_bounds := none }

/-- `translate_selection(offset)`: translate every selected stroke and shift
the cached bounds by the same offset. -/
def translate_selection (s : StrokesState) (offset : Vec2) : StrokesState :=
  let strokes' := s.strokes.map (fun p =>
    match getComp s.selection_components p.1 with
    | some c => if c.selected then (p.1, p.2.translate offset) else p
    | none => p)
  update_rendering_for_selection
    { s with
      strokes := strokes',
      selection_bounds := s.selection_bounds.map (fun b => aabb_translate b offset) }

/-- The inner `calc_new_stroke_bounds` of `resize_selection`, verbatim from
the source: anisotropic affine rescale of a stroke's bounds from the current
aggregate selection bounds onto the new bounds. -/
def calc_new_stroke_bounds (stroke : StrokeStyle) (selection_bounds new_bounds : AABB) : AABB :=
  let offset : Vec2 :=
    ⟨new_bounds.mins.x - selection_bounds.mins.x,
     new_bounds.mins.y - selection_bounds.mins.y⟩
  let scalevector : Vec2 :=
    ⟨(new_bounds.maxs.x - new_bounds.mins.x) / (selection_bounds.maxs.x - selection_bounds.mins.x),
     (new_bounds.maxs.y - new_bounds.mins.y) / (selection_bounds.maxs.y - selection_bounds.mins.y)⟩
  ⟨⟨(stroke.bounds.mins.x - selection_bounds.mins.x) * scalevector.x
      + selection_bounds.mins.x + offset.x,
    (stroke.bounds.mins.y - selection_bounds.mins.y) * scalevector.y
      + selection_bounds.mins.y + offset.y⟩,
   ⟨(stroke.bounds.mins.x - selection_bounds.mins.x) * scalevector.x
      + selection_bounds.mins.x + offset.x
      + (stroke.bounds.maxs.x - stroke.bounds.mins.x) * scalevector.x,
    (stroke.bounds.mins.y - selection_bounds.mins.y) * scalevector.y
      + selection_bounds.mins.y + offset.y
      + (stroke.bounds.maxs.y - stroke.bounds.mins.y) * scalevector.y⟩⟩

/-- `resize_selection(new_bounds)`: when a cached aggregate bounds exists,
resize every selected stroke through `calc_new_stroke_bounds` and set the
cache to `new_bounds` directly; otherwise do nothing. -/
def resize_selection (s : StrokesState) (new_bounds : AABB) : StrokesState :=
  match s.selection_bounds with
  | some selection_bounds =>
    let strokes' := s.strokes.map (fun p =>
      match getComp s.selection_components p.1 with
      | some c =>
        if c.selected then
          (p.1, p.2.resize (calc_new_stroke_bounds p.2 selection_bounds new_bounds))
        else p
      | none => p)
    update_rendering_for_selection
      { s with strokes := strokes', selection_bounds := some new_bounds }
  | none => s

/-- The hidden-stroke skip of the selector scan: skipped when the render and
trash components both exist and the stroke is invisible or trashed. -/
def skip_hidden (s : StrokesState) (k : Nat) : Bool :=
  match getComp s.render_components k, getComp s.trash_components k with
  | some rc, some tc => !rc.render || tc.trashed
  | _, _ => false

/-- The viewport skip of the selector scan: skipped when a viewport is given
and does not intersect the stroke's bounds. -/
def skip_viewport (viewport : Option AABB) (st : StrokeStyle) : Bool :=
  match viewport with
  | some v => !(v.intersects st.bounds)
  | none => false

/-- The per-stroke selection decision of the selector scan: full bounding-box
containment selects every kind; for the free-form kinds an intersecting
stroke is additionally selected when every hitbox sub-box is contained. -/
def select_decision (selector_bounds : AABB) : StrokeStyle → Bool
  | .markerStroke b hb =>
    if selector_bounds.contains b then true
    else if selector_bounds.intersects b then hb.all (fun e => selector_bounds.contains e)
    else false
  | .brushStroke b hb =>
    if selector_bounds.contains b then true
    else if selector_bounds.intersects b then hb.all (fun e => selector_bounds.contains e)
    else false
  | .shapeStroke b => selector_bounds.contains b
  | .vectorImage b => selector_bounds.contains b
  | .bitmapImage b => selector_bounds.contains b

/-- One step of the selector scan over the stroke registry: apply the skips,
then write the selection decision through the entity's selection component
(absent component: nothing happens). -/
def scan_step (s : StrokesState) (selector_bounds : AABB) (viewport : Option AABB)
    (comps : List (Nat × SelectionComponent)) (p : Nat × StrokeStyle) :
    List (Nat × SelectionComponent) :=
  if skip_hidden s p.1 || skip_viewport viewport p.2 then comps
  else setComp comps p.1 ⟨select_decision selector_bounds p.2⟩

/-- `update_selection_for_selector(selector, viewport)`: scan every stroke
against the selector bounds, and report whether the count of selected
strokes changed; with no selector bounds the call is a no-op returning
`false`. -/
def update_selection_for_selector (s : StrokesState) (selector : Selector)
    (viewport : Option AABB) : StrokesState × Bool :=
  let selection_len_prev := s.selection_len
  match selector.bounds with
  | none => (s, false)
  | some selector_bounds =>
    let comps' := s.strokes.foldl (scan_step s selector_bounds viewport) s.selection_components
    let s1 := { s with selection_components := comps' }
    if s1.selection_len ≠ selection_len_prev then
      (update_rendering_for_selection (update_selection_bounds s1), true)
    else
      (s1, false)

/-- Phase one of `duplicate_selection`: walk the selection components in
store order; each selected entry is deselected and its stroke (unwrapped
from the registry: `none` models the panic on a dangling key) is cloned into
the registry under the next fresh key. Returns the updated components, the
grown registry and the duplicate keys in order. -/
def dupPhase1 (strokes : List (Nat × StrokeStyle)) (next : Nat) :
    List (Nat × SelectionComponent) →
    Option (List (Nat × SelectionComponent) × List (Nat × StrokeStyle) × List Nat)
  | [] => some ([], strokes, [])
  | (k, c) :: rest =>
    if c.selected then
      match getComp strokes k with
      | none => none
      | some st =>
        match dupPhase1 (strokes ++ [(next, st)]) (next + 1) rest with
        | none => none
        | some (comps', strokes', dks) =>
          some ((k, (⟨false⟩ : SelectionComponent)) :: comps', strokes', next :: dks)
    else
      match dupPhase1 strokes next rest with
      | none => none
      | some (comps', strokes', dks) => some ((k, c) :: comps', strokes', dks)

/-- Phase two of `duplicate_selection`: for each duplicate key, insert a
selected selection component and default render and trash components,
translate the duplicate by the fixed offset and refresh its rendering. -/
def dupPhase2 (offset : Vec2) (dks : List Nat) (s : StrokesState) : StrokesState :=
  dks.foldl (fun s dk =>
    update_rendering_for_stroke
      { s with
        selection_components := insertComp s.selection_components dk ⟨true⟩,
        render_components := insertComp s.render_components dk RenderComponent.default,
        trash_components := insertComp s.trash_components dk TrashComponent.default,
        strokes := mapAt s.strokes dk (fun st => st.translate offset) } dk) s

/-- `duplicate_selection()`: clone every selected stroke into a fresh
entity, deselect the originals, select and offset the duplicates by
`(20, 20)`, then recompute the bounds cache once. `none` models the panic of
the unwrapped registry lookup on a selected key with no stroke. -/
def duplicate_selection (s : StrokesState) : Option StrokesState :=
  match dupPhase1 s.strokes (s.maxKey + 1) s.selection_components with
  | none => none
  | some (comps', strokes', dks) =>
    some (update_selection_bounds
      (dupPhase2 ⟨20, 20⟩ dks
        { s with selection_components := comps', strokes := strokes' }))

/-- The keys contributing to `gen_svg_from_strokes`: renderable entities
whose trashed flag is available and `false` (`!trashed(key).unwrap_or(true)`
treats a missing trash component as trashed). -/
def gen_svg_contrib_keys (s : StrokesState) : List Nat :=
  s.render_components.filterMap (fun p =>
    if p.2.render && !((s.trashed p.1).getD true) then some p.1 else none)

/-- `gen_svg_from_strokes()`: concatenate the markup fragments of every
contributing stroke at zero offset; a per-stroke serialization failure is
logged and skipped; the call always returns `Ok`. The external per-stroke
`gen_svg_data` kernel is a parameter. -/
def gen_svg_from_strokes (s : StrokesState)
    (gen : StrokeStyle → Vec2 → Except String String) : Except String String :=
  Except.ok ((gen_svg_contrib_keys s).foldl (fun data k =>
    match getComp s.strokes k with
    | some stroke =>
      match gen stroke ⟨0, 0⟩ with
      | .ok data_entry => data ++ data_entry
      | .error _ => data
    | none => data) "")

/-- The strokes serialized by `export_selection_as_svg`: every selection key
resolved through the registry, in selection-key order. -/
def export_selection_strokes (s : StrokesState) : List StrokeStyle :=
  s.selection_keys.filterMap (fun k => getComp s.strokes k)

/-- The markup data built by `export_selection_as_svg` before wrapping:
`none` when there is no cached aggregate selection bounds (in which case the
source writes nothing and returns `Ok`). Fragments are generated at offset
`-selection_bounds.mins` and joined with newlines; a failing fragment is
dropped. The container wrapping and the file output are external. -/
def export_selection_svg_data (s : StrokesState)
    (gen : StrokeStyle → Vec2 → Except String String) : Option String :=
  match s.selection_bounds with
  | some selection_bounds =>
    some (((export_selection_strokes s).filterMap (fun stroke =>
      match gen stroke ⟨-selection_bounds.mins.x, -selection_bounds.mins.y⟩ with
      | .ok x => some x
      | .error _ => none)).foldl (fun acc x => acc ++ x ++ "\n") "")
  | none => none

end StrokesState

/-! ### Association-list lemmas -/

theorem getComp_map_pair {α : Type} (l : List (Nat × α)) (f : Nat → α → α) (k : Nat) :
    getComp (l.map (fun p => (p.1, f p.1 p.2))) k = (getComp l k).map (f k) := by
  induction l with
  | nil => rfl
  | cons p rest ih =>
    by_cases h : p.1 = k
    · subst h
      simp [getComp]
    · simp [getComp, h, ih]

theorem getComp_append {α : Type} (l₁ l₂ : List (Nat × α)) (k : Nat) :
    getComp (l₁ ++ l₂) k =
      match getComp l₁ k with
      | some v => some v
      | none => getComp l₂ k := by
  induction l₁ with
  | nil => rfl
  | cons p rest ih =>
    by_cases h : p.1 = k
    · simp [getComp, h]
    · simp [getComp, h, ih]

theorem getComp_append_single_ne {α : Type} (l : List (Nat × α)) (k k' : Nat) (v : α)
    (h : k' ≠ k) : getComp (l ++ [(k', v)]) k = getComp l k := by
  rw [getComp_append]
  cases hg : getComp l k with
  | some w => rfl
  | none => simp [getComp, h]

theorem getComp_eq_some_of_mem {α : Type} (l : List (Nat × α)) (k : Nat) (v : α)
    (hnd : (keysOf l).Nodup) (hm : (k, v) ∈ l) : getComp l k = some v := by
  induction l with
  | nil => cases hm
  | cons p rest ih =>
    rcases List.mem_cons.mp hm with h | h
    · subst h
      simp [getComp]
    · have hk : p.1 ≠ k := by
        intro hkk
        have : k ∈ keysOf rest := List.mem_map.mpr ⟨(k, v), h, rfl⟩
        have := (List.nodup_cons.mp hnd).1
        rw [hkk] at this
        exact this ‹k ∈ keysOf rest›
      have hnd' : (keysOf rest).Nodup := (List.nodup_cons.mp hnd).2
      simp [getComp, hk, ih hnd' h]

theorem getComp_eq_none_of_lt {α : Type} (l : List (Nat × α)) (M k : Nat)
    (hb : ∀ p ∈ l, p.1 ≤ M) (hk : M < k) : getComp l k = none := by
  induction l with
  | nil => rfl
  | cons p rest ih =>
    have h1 : p.1 ≤ M := hb p (List.mem_cons_self _ _)
    have hne : p.1 ≠ k := by omega
    simp only [getComp, hne, if_false]
    exact ih (fun q hq => hb q (List.mem_cons_of_mem _ hq))

theorem getComp_isSome_append_left {α : Type} (l₁ l₂ : List (Nat × α)) (k : Nat)
    (h : (getComp l₁ k).isSome) : (getComp (l₁ ++ l₂) k).isSome := by
  rw [getComp_append]
  cases hg : getComp l₁ k with
  | some v => simp
  | none => rw [hg] at h; simp at h

theorem getComp_map_const {α : Type} (ks : List Nat) (v : α) (k : Nat) :
    getComp (ks.map (fun d => (d, v))) k = if k ∈ ks then some v else none := by
  induction ks with
  | nil => rfl
  | cons d rest ih =>
    by_cases h : d = k
    · subst h
      simp [getComp]
    · have : (k ∈ d :: rest) = (k ∈ rest) := by
        simp [List.mem_cons, Ne.symm h]
      simp [getComp, h, ih, this]

theorem keysOf_map_pair {α : Type} (l : List (Nat × α)) (f : Nat → α → α) :
    keysOf (l.map (fun p => (p.1, f p.1 p.2))) = keysOf l := by
  simp [keysOf, List.map_map]

theorem setComp_eq_map {α : Type} (m : List (Nat × α)) (k : Nat) (v : α) :
    setComp m k v = m.map (fun p => if p.1 = k then (p.1, v) else p) := rfl

/-! ### Stroke lemmas -/

theorem StrokeStyle.resize_bounds (st : StrokeStyle) (b : AABB) : (st.resize b).bounds = b := by
  cases st <;> rfl

theorem StrokeStyle.translate_bounds (st : StrokeStyle) (off : Vec2) :
    (st.translate off).bounds = aabb_translate st.bounds off := by
  cases st <;> rfl

/-- The bounds-level form of `calc_new_stroke_bounds`: the function only
reads the stroke's bounds. -/
def calcBounds (selection_bounds new_bounds b : AABB) : AABB :=
  StrokesState.calc_new_stroke_bounds (.shapeStroke b) selection_bounds new_bounds

theorem calc_new_stroke_bounds_eq (st : StrokeStyle) (sb nb : AABB) :
    StrokesState.calc_new_stroke_bounds st sb nb = calcBounds sb nb st.bounds := by
  cases st <;> rfl

theorem StrokeStyle.resize_resize_self (st : StrokeStyle) (a : AABB) :
    (st.resize a).resize st.bounds = st := by
  cases st <;> rfl

theorem calcBounds_roundtrip (O B b : AABB)
    (hx : O.maxs.x - O.mins.x ≠ 0) (hy : O.maxs.y - O.mins.y ≠ 0)
    (hbx : B.maxs.x - B.mins.x ≠ 0) (hby : B.maxs.y - B.mins.y ≠ 0) :
    calcBounds B O (calcBounds O B b) = b := by
  obtain ⟨⟨bx1, by1⟩, bx2, by2⟩ := b
  simp only [calcBounds, StrokesState.calc_new_stroke_bounds, StrokeStyle.bounds,
    AABB.mk.injEq, Vec2.mk.injEq]
  refine ⟨⟨?_, ?_⟩, ?_, ?_⟩ <;> field_simp <;> ring

/-! ### Claim C1 -/

/-- The degenerate failing input for the unguarded resize: one selected
stroke, cached aggregate selection bounds of zero height. -/
def c1State : StrokesState :=
  ⟨[(0, .shapeStroke ⟨⟨0, 1⟩, ⟨10, 3⟩⟩)],
   [(0, ⟨true⟩)], [(0, ⟨true⟩)], [(0, ⟨false⟩)],
   some ⟨⟨0, 0⟩, ⟨10, 0⟩⟩⟩

/-- The requested new bounds for the degenerate resize. -/
def c1NewBounds : AABB := ⟨⟨0, 0⟩, ⟨10, 5⟩⟩

/-- Claim C1: `resize_selection` is claimed never to silently divide by zero
when the old aggregate bounds have a zero-extent axis, rejecting the resize
or using a safe fallback scale instead. The code has no such guard: at this
input the cached old bounds have zero height, yet the resize proceeds and
the per-stroke scale `5 / 0` is computed unguarded. In this exact-rational
model the division yields `0` and the stroke's bounds collapse to zero
height (under `f64` the scale is non-finite), which is neither a rejection
(the stroke changed) nor a fallback scale of one (which would preserve the
stroke's height). -/
theorem claim_C1_resize_unguarded_division :
    (c1State.selection_bounds = some ⟨⟨0, 0⟩, ⟨10, 0⟩⟩
      ∧ (⟨⟨0, 0⟩, ⟨10, 0⟩⟩ : AABB).maxs.y - (⟨⟨0, 0⟩, ⟨10, 0⟩⟩ : AABB).mins.y = 0)
    ∧ (c1State.resize_selection c1NewBounds).strokes
        = [(0, .shapeStroke ⟨⟨0, 0⟩, ⟨10, 0⟩⟩)]
    ∧ (c1State.resize_selection c1NewBounds).strokes ≠ c1State.strokes := by
  have hres : (c1State.resize_selection c1NewBounds).strokes
      = [(0, StrokeStyle.shapeStroke ⟨⟨0, 0⟩, ⟨10, 0⟩⟩)] := by
    simp only [c1State, c1NewBounds, StrokesState.resize_selection,
      StrokesState.update_rendering_for_selection, StrokesState.calc_new_stroke_bounds,
      StrokeStyle.bounds, StrokeStyle.resize, getComp, List.map, reduceIte]
    norm_num
  refine ⟨⟨rfl, by norm_num⟩, hres, ?_⟩
  rw [hres]
  simp only [c1State, ne_eq, List.cons.injEq, Prod.mk.injEq, StrokeStyle.shapeStroke.injEq,
    AABB.mk.injEq, Vec2.mk.injEq]
  norm_num

/-! ### Claim C6 -/

/-- Claim C6: resizing a selection with non-degenerate aggregate bounds `O`
to non-degenerate bounds `B` and then immediately resizing back to `O`
restores each selected stroke's bounds to its pre-resize value — in this
exact-rational model the whole state roundtrips exactly. -/
theorem claim_C6_resize_roundtrip (s : StrokesState) (O B : AABB)
    (hO : s.selection_bounds = some O)
    (hx : O.maxs.x - O.mins.x ≠ 0) (hy : O.maxs.y - O.mins.y ≠ 0)
    (hbx : B.maxs.x - B.mins.x ≠ 0) (hby : B.maxs.y - B.mins.y ≠ 0) :
    (s.resize_selection B).resize_selection O = s := by
  obtain ⟨strokes, comps, rcs, tcs, sb⟩ := s
  simp only [StrokesState.resize_selection] at hO ⊢
  subst hO
  simp only [StrokesState.update_rendering_for_selection, List.map_map]
  refine congrArg (fun l => StrokesState.mk l comps rcs tcs (some O)) ?_
  have hpt : ∀ p : Nat × StrokeStyle,
      (fun p : Nat × StrokeStyle =>
        match getComp comps p.1 with
        | some c =>
          if c.selected then
            (p.1, p.2.resize (StrokesState.calc_new_stroke_bounds p.2 B O))
          else p
        | none => p)
      ((fun p : Nat × StrokeStyle =>
        match getComp comps p.1 with
        | some c =>
          if c.selected then
            (p.1, p.2.resize (StrokesState.calc_new_stroke_bounds p.2 O B))
          else p
        | none => p) p) = p := by
    intro p
    cases hc : getComp comps p.1 with
    | none => simp [hc]
    | some c =>
      by_cases hsel : c.selected
      · simp only [hc, hsel, if_true]
        rw [calc_new_stroke_bounds_eq, calc_new_stroke_bounds_eq,
          StrokeStyle.resize_bounds, calcBounds_roundtrip O B _ hx hy hbx hby,
          StrokeStyle.resize_resize_self]
      · simp [hc, hsel]
  calc strokes.map _ = strokes.map id := List.map_congr_left (fun p _ => hpt p)
    _ = strokes := List.map_id strokes

/-! ### Characterization of the selector scan -/

/-- The selection flag a scan entry writes for key `k`: `none` when the entry
is skipped or keyed differently. -/
def write_of (s : StrokesState) (sb : AABB) (vp : Option AABB)
    (p : Nat × StrokeStyle) (k : Nat) : Option Bool :=
  if StrokesState.skip_hidden s p.1 || StrokesState.skip_viewport vp p.2 then none
  else if p.1 = k then some (StrokesState.select_decision sb p.2) else none

/-- The last flag the scan writes for key `k` over the whole registry list. -/
def last_write (s : StrokesState) (sb : AABB) (vp : Option AABB) :
    List (Nat × StrokeStyle) → Nat → Option Bool
  | [], _ => none
  | p :: rest, k =>
    match last_write s sb vp rest k with
    | some b => some b
    | none => write_of s sb vp p k

theorem last_write_nil (s : StrokesState) (sb : AABB) (vp : Option AABB) (k : Nat) :
    last_write s sb vp [] k = none := rfl

theorem last_write_cons (s : StrokesState) (sb : AABB) (vp : Option AABB)
    (p : Nat × StrokeStyle) (rest : List (Nat × StrokeStyle)) (k : Nat) :
    last_write s sb vp (p :: rest) k
      = match last_write s sb vp rest k with
        | some b => some b
        | none => write_of s sb vp p k := rfl

/-- The selector scan is a per-entry overwrite: each selection component
receives the last flag written for its key, or keeps its value when the scan
never writes it. -/
theorem scan_eq_map (s : StrokesState) (sb : AABB) (vp : Option AABB) :
    ∀ (l : List (Nat × StrokeStyle)) (c : List (Nat × SelectionComponent)),
      l.foldl (StrokesState.scan_step s sb vp) c
        = c.map (fun q => (q.1,
            match last_write s sb vp l q.1 with
            | some b => (⟨b⟩ : SelectionComponent)
            | none => q.2)) := by
  intro l
  induction l with
  | nil =>
    intro c
    simp [last_write]
  | cons p rest ih =>
    intro c
    rw [List.foldl_cons, ih, StrokesState.scan_step]
    by_cases hskip : StrokesState.skip_hidden s p.1 || StrokesState.skip_viewport vp p.2
    · rw [if_pos hskip]
      refine List.map_congr_left (fun q _ => ?_)
      have hw : write_of s sb vp p q.1 = none := by
        rw [write_of, if_pos hskip]
      rw [last_write_cons]
      rcases hlw : last_write s sb vp rest q.1 with _ | b <;> simp [hlw, hw]
    · rw [if_neg hskip, setComp_eq_map, List.map_map]
      refine List.map_congr_left (fun q _ => ?_)
      obtain ⟨qk, qc⟩ := q
      simp only [Function.comp_apply]
      rw [last_write_cons]
      by_cases hk : qk = p.1
      · subst hk
        have hw : write_of s sb vp p p.1 = some (StrokesState.select_decision sb p.2) := by
          rw [write_of, if_neg hskip, if_pos rfl]
        rcases hlw : last_write s sb vp rest p.1 with _ | b <;>
          simp [hlw, hw]
      · have hw : write_of s sb vp p qk = none := by
          rw [write_of, if_neg hskip, if_neg (fun h => hk h.symm)]
        rcases hlw : last_write s sb vp rest qk with _ | b <;>
          simp [hlw, hw, hk]

/-- A key the scan never writes (because it is absent from the registry)
keeps its flag. -/
theorem last_write_eq_none_of_not_mem (s : StrokesState) (sb : AABB) (vp : Option AABB)
    (l : List (Nat × StrokeStyle)) (k : Nat) (h : k ∉ keysOf l) :
    last_write s sb vp l k = none := by
  induction l with
  | nil => rfl
  | cons p rest ih =>
    have hk : p.1 ≠ k := fun hkk => h (by simp [keysOf, hkk])
    have hrest : k ∉ keysOf rest := fun hm => h (by simp [keysOf] at hm ⊢; exact Or.inr hm)
    rw [last_write_cons, ih hrest]
    show write_of s sb vp p k = none
    simp [write_of, hk]

/-- With distinct registry keys, the scan writes exactly the decision of the
entry's stroke for every non-skipped entry. -/
theorem last_write_eq_decision (s : StrokesState) (sb : AABB) (vp : Option AABB)
    (l : List (Nat × StrokeStyle)) (k : Nat) (st : StrokeStyle)
    (hnd : (keysOf l).Nodup) (hm : (k, st) ∈ l)
    (hh : StrokesState.skip_hidden s k = false)
    (hv : StrokesState.skip_viewport vp st = false) :
    last_write s sb vp l k = some (StrokesState.select_decision sb st) := by
  induction l with
  | nil => cases hm
  | cons p rest ih =>
    rcases List.mem_cons.mp hm with h | h
    · have hknotin : k ∉ keysOf rest := by
        have := (List.nodup_cons.mp hnd).1
        rw [← h] at this
        exact this
      rw [last_write_cons, last_write_eq_none_of_not_mem s sb vp rest k hknotin]
      show write_of s sb vp p k = _
      rw [write_of, ← h]
      simp [hh, hv]
    · have hnd' : (keysOf rest).Nodup := (List.nodup_cons.mp hnd).2
      rw [last_write_cons, ih hnd' h]

/-- The intermediate state of the selector scan: the selection components
after the fold over the registry. -/
def scanned (s : StrokesState) (sb : AABB) (vp : Option AABB) : StrokesState :=
  { s with selection_components :=
      s.strokes.foldl (StrokesState.scan_step s sb vp) s.selection_components }

/-- The selector-bounds branch of `update_selection_for_selector`, spelled
out. -/
theorem selector_some_eq (s : StrokesState) (sel : Selector) (vp : Option AABB)
    (sb : AABB) (hb : sel.bounds = some sb) :
    s.update_selection_for_selector sel vp =
      (if (scanned s sb vp).selection_len ≠ s.selection_len
       then (StrokesState.update_rendering_for_selection
              (StrokesState.update_selection_bounds (scanned s sb vp)), true)
       else (scanned s sb vp, false)) := by
  simp [StrokesState.update_selection_for_selector, hb, scanned]

/-- `selection_len` only reads the selection components. -/
theorem selection_len_congr (s s' : StrokesState)
    (h : s'.selection_components = s.selection_components) :
    s'.selection_len = s.selection_len := by
  rw [StrokesState.selection_len, StrokesState.selection_len,
    StrokesState.selection_keys, StrokesState.selection_keys, h]

/-! ### Claim C4 -/

/-- Claim C4: `update_selection_for_selector` returns `true` exactly when
the count of selected strokes after the scan differs from the count before
it, and with no selector bounds it mutates nothing and returns `false`. -/
theorem claim_C4_selector_reports_count_change (s : StrokesState) (sel : Selector)
    (vp : Option AABB) :
    ((s.update_selection_for_selector sel vp).2 = true ↔
      (s.update_selection_for_selector sel vp).1.selection_len ≠ s.selection_len)
    ∧ (sel.bounds = none → s.update_selection_for_selector sel vp = (s, false)) := by
  refine ⟨?_, fun hnone => by simp [StrokesState.update_selection_for_selector, hnone]⟩
  cases hb : sel.bounds with
  | none =>
    simp [StrokesState.update_selection_for_selector, hb]
  | some sb =>
    rw [selector_some_eq s sel vp sb hb]
    by_cases h : (scanned s sb vp).selection_len ≠ s.selection_len
    · rw [if_pos h]
      constructor
      · intro _
        have heq := selection_len_congr (scanned s sb vp)
          (StrokesState.update_rendering_for_selection
            (StrokesState.update_selection_bounds (scanned s sb vp))) rfl
        simpa [heq] using h
      · intro _; rfl
    · rw [if_neg h]
      constructor
      · intro hfalse; cases hfalse
      · intro hne; exact absurd hne h

/-! ### Claim C7 -/

/-- A state after the selector scan call: same registry, render and trash
stores; possibly rescanned selection components and refreshed bounds. -/
theorem selector_result_fields (s : StrokesState) (sel : Selector) (vp : Option AABB) :
    (s.update_selection_for_selector sel vp).1.strokes = s.strokes
    ∧ (s.update_selection_for_selector sel vp).1.render_components = s.render_components
    ∧ (s.update_selection_for_selector sel vp).1.trash_components = s.trash_components := by
  cases hb : sel.bounds with
  | none => simp [StrokesState.update_selection_for_selector, hb]
  | some sb =>
    rw [selector_some_eq s sel vp sb hb]
    split <;>
      simp [StrokesState.update_rendering_for_selection, StrokesState.update_selection_bounds,
        scanned]

/-- The hidden-stroke skip only reads the render and trash stores. -/
theorem skip_hidden_congr (s s' : StrokesState)
    (hr : s'.render_components = s.render_components)
    (ht : s'.trash_components = s.trash_components) :
    StrokesState.skip_hidden s' = StrokesState.skip_hidden s := by
  funext k
  rw [StrokesState.skip_hidden, StrokesState.skip_hidden, hr, ht]

/-- The selection components after a selector scan call with bounds are the
scanned components (refreshing the bounds cache leaves them untouched). -/
theorem selector_result_comps (s : StrokesState) (sel : Selector) (vp : Option AABB)
    (sb : AABB) (hb : sel.bounds = some sb) :
    (s.update_selection_for_selector sel vp).1.selection_components
      = s.strokes.foldl (StrokesState.scan_step s sb vp) s.selection_components := by
  rw [selector_some_eq s sel vp sb hb]
  split <;>
    simp [StrokesState.update_rendering_for_selection, StrokesState.update_selection_bounds,
      scanned]

/-- Claim C7: running `update_selection_for_selector` twice with the same
selector and viewport on an otherwise unchanged state returns `false` the
second time. -/
theorem claim_C7_selector_idempotent (s : StrokesState) (sel : Selector) (vp : Option AABB) :
    ((s.update_selection_for_selector sel vp).1.update_selection_for_selector sel vp).2
      = false := by
  cases hb : sel.bounds with
  | none =>
    simp [StrokesState.update_selection_for_selector, hb]
  | some sb =>
    obtain ⟨hst, hr, ht⟩ := selector_result_fields s sel vp
    set s1 := (s.update_selection_for_selector sel vp).1 with hs1
    have hcomps : s1.selection_components
        = s.strokes.foldl (StrokesState.scan_step s sb vp) s.selection_components :=
      selector_result_comps s sel vp sb hb
    have hstep : StrokesState.scan_step s1 sb vp = StrokesState.scan_step s sb vp := by
      funext c p
      rw [StrokesState.scan_step, StrokesState.scan_step, skip_hidden_congr s s1 hr ht]
    have hscan2 : scanned s1 sb vp = s1 := by
      have h2 : s.strokes.foldl (StrokesState.scan_step s sb vp)
          (s.strokes.foldl (StrokesState.scan_step s sb vp) s.selection_components)
          = s.strokes.foldl (StrokesState.scan_step s sb vp) s.selection_components := by
        rw [scan_eq_map, scan_eq_map, List.map_map]
        refine List.map_congr_left (fun q _ => ?_)
        rcases hlw : last_write s sb vp s.strokes q.1 with _ | b <;>
          simp [hlw, Function.comp]
      rw [scanned, hstep, hst, hcomps, h2, ← hcomps, ← hst]
    rw [selector_some_eq s1 sel vp sb hb, hscan2,
      if_neg (show ¬(s1.selection_len ≠ s1.selection_len) from fun h => h rfl)]

/-! ### Claim C5 -/

/-- Looking up a key in the overwrite image of the scan. -/
theorem getComp_scan (s : StrokesState) (sb : AABB) (vp : Option AABB)
    (c : List (Nat × SelectionComponent)) (l : List (Nat × StrokeStyle)) (k : Nat) :
    getComp (c.map (fun q => (q.1,
        match last_write s sb vp l q.1 with
        | some b => (⟨b⟩ : SelectionComponent)
        | none => q.2))) k
      = (getComp c k).map (fun cc =>
          match last_write s sb vp l k with
          | some b => (⟨b⟩ : SelectionComponent)
          | none => cc) :=
  getComp_map_pair c (fun k cc =>
    match last_write s sb vp l k with
    | some b => (⟨b⟩ : SelectionComponent)
    | none => cc) k

/-- Claim C5: a free-form stroke considered by the selector scan whose
bounds intersect but are not contained in the selector bounds ends up
selected exactly when every hitbox sub-box is contained — in particular any
single uncontained sub-box leaves it unselected. -/
theorem claim_C5_hitbox_containment (s : StrokesState) (sel : Selector) (vp : Option AABB)
    (sb : AABB) (k : Nat) (st : StrokeStyle)
    (hb : sel.bounds = some sb)
    (hnd : (keysOf s.strokes).Nodup)
    (hm : (k, st) ∈ s.strokes)
    (hcs : (getComp s.selection_components k).isSome = true)
    (hh : StrokesState.skip_hidden s k = false)
    (hv : StrokesState.skip_viewport vp st = false)
    (hff : st.isFreeForm = true)
    (hcont : sb.contains st.bounds = false)
    (hint : sb.intersects st.bounds = true) :
    (s.update_selection_for_selector sel vp).1.selected k
      = some (st.hitbox.all (fun e => sb.contains e)) := by
  have hcomps := selector_result_comps s sel vp sb hb
  rw [StrokesState.selected, hcomps, scan_eq_map, getComp_scan]
  obtain ⟨c, hc⟩ := Option.isSome_iff_exists.mp hcs
  rw [hc]
  rw [last_write_eq_decision s sb vp s.strokes k st hnd hm hh hv]
  cases st with
  | markerStroke b hbx =>
    simp only [StrokeStyle.bounds] at hcont hint
    simp [StrokesState.select_decision, StrokeStyle.hitbox, hcont, hint]
  | brushStroke b hbx =>
    simp only [StrokeStyle.bounds] at hcont hint
    simp [StrokesState.select_decision, StrokeStyle.hitbox, hcont, hint]
  | shapeStroke b => cases hff
  | vectorImage b => cases hff
  | bitmapImage b => cases hff

/-- Witness data for the hitbox-containment law: a marker stroke with one
contained and one uncontained hitbox sub-box. -/
def w5stroke : StrokeStyle :=
  .markerStroke ⟨⟨0, 0⟩, ⟨4, 4⟩⟩ [⟨⟨0, 0⟩, ⟨2, 2⟩⟩, ⟨⟨2, 2⟩, ⟨4, 4⟩⟩]

/-- Witness state for the hitbox-containment law. -/
def w5 : StrokesState :=
  ⟨[(0, w5stroke)], [(0, ⟨true⟩)], [(0, ⟨true⟩)], [(0, ⟨false⟩)], none⟩

/-- Witness selector for the hitbox-containment law. -/
def w5sel : Selector := ⟨some ⟨⟨-1, -1⟩, ⟨3, 3⟩⟩⟩

/-- Witness for claim C5 at the concrete stroke above: the stroke intersects
the selector without containment, one sub-box sticks out, so it ends up
unselected. -/
theorem claim_C5_witness :
    (w5.update_selection_for_selector w5sel none).1.selected 0 = some false := by
  have h := claim_C5_hitbox_containment w5 w5sel none ⟨⟨-1, -1⟩, ⟨3, 3⟩⟩ 0 w5stroke
    rfl (by simp [w5, keysOf]) (by simp [w5]) rfl rfl rfl rfl
    (by norm_num [w5stroke, StrokeStyle.bounds, AABB.contains])
    (by norm_num [w5stroke, StrokeStyle.bounds, AABB.intersects])
  rw [h]
  norm_num [w5stroke, StrokeStyle.hitbox, AABB.contains, List.all]

/-! ### Claims C3 and C10 -/

theorem getComp_mem {α : Type} (l : List (Nat × α)) (k : Nat) (v : α)
    (h : getComp l k = some v) : (k, v) ∈ l := by
  induction l with
  | nil => cases h
  | cons p rest ih =>
    by_cases hk : p.1 = k
    · rw [getComp, if_pos hk] at h
      obtain ⟨pk, pv⟩ := p
      obtain rfl : pv = v := Option.some.inj h
      obtain rfl : pk = k := hk
      exact List.mem_cons_self _ _
    · rw [getComp, if_neg hk] at h
      exact List.mem_cons_of_mem _ (ih h)

/-- A serialization kernel returning a fixed fragment for every stroke. -/
def c3gen : StrokeStyle → Vec2 → Except String String := fun _ _ => .ok "F"

/-- The counterexample state: a single stroke that is simultaneously
selected and trashed, with a cached aggregate selection bounds. -/
def c3State : StrokesState :=
  ⟨[(0, .shapeStroke ⟨⟨0, 0⟩, ⟨1, 1⟩⟩)], [(0, ⟨true⟩)], [(0, ⟨true⟩)], [(0, ⟨true⟩)],
   some ⟨⟨0, 0⟩, ⟨1, 1⟩⟩⟩

/-- Counterexample to claim C3 as stated: the stroke with key `0` is
trashed, yet `export_selection_as_svg` serializes it — the selection export
pipeline takes every selected stroke straight from `selection_keys()` with
no trash filtering, so the trashed stroke's fragment appears in the
output. -/
theorem claim_C3_counterexample :
    c3State.trashed 0 = some true
    ∧ StrokesState.export_selection_strokes c3State = [.shapeStroke ⟨⟨0, 0⟩, ⟨1, 1⟩⟩]
    ∧ StrokesState.export_selection_svg_data c3State c3gen = some "F\n" :=
  ⟨rfl, rfl, rfl⟩

/-- Claim C3 (amended): a trashed stroke contributes no fragment to
`gen_svg_from_strokes` (which keeps only renderable strokes whose trash
component exists with `trashed = false`), while `export_selection_as_svg`
serializes every selected stroke present in the registry regardless of its
trash state. -/
theorem claim_C3_amended (s : StrokesState) (k : Nat) (st : StrokeStyle) :
    (s.trashed k = some true → k ∉ StrokesState.gen_svg_contrib_keys s)
    ∧ (s.selected k = some true → getComp s.strokes k = some st →
        st ∈ StrokesState.export_selection_strokes s) := by
  constructor
  · intro ht hk
    rw [StrokesState.gen_svg_contrib_keys] at hk
    obtain ⟨p, hp, hf⟩ := List.mem_filterMap.mp hk
    by_cases hcond : p.2.render && !((s.trashed p.1).getD true)
    · rw [if_pos hcond] at hf
      obtain rfl : p.1 = k := Option.some.inj hf
      rw [ht] at hcond
      simp at hcond
    · rw [if_neg hcond] at hf
      cases hf
  · intro hsel hst
    rw [StrokesState.selected] at hsel
    obtain ⟨c, hc, hcsel⟩ : ∃ c, getComp s.selection_components k = some c
        ∧ c.selected = true := by
      cases hg : getComp s.selection_components k with
      | none => rw [hg] at hsel; cases hsel
      | some c => exact ⟨c, rfl, by rw [hg] at hsel; exact Option.some.inj hsel⟩
    have hkmem : k ∈ s.selection_keys := by
      rw [StrokesState.selection_keys]
      exact List.mem_filterMap.mpr ⟨(k, c), getComp_mem _ _ _ hc, by simp [hcsel]⟩
    rw [StrokesState.export_selection_strokes]
    exact List.mem_filterMap.mpr ⟨k, hkmem, hst⟩

/-- Witness for the amended claim C3, at the counterexample state: the
trashed stroke is excluded from the full-document export yet included in the
selection export. -/
theorem claim_C3_amended_witness :
    0 ∉ StrokesState.gen_svg_contrib_keys c3State
    ∧ (StrokeStyle.shapeStroke ⟨⟨0, 0⟩, ⟨1, 1⟩⟩) ∈ StrokesState.export_selection_strokes c3State :=
  ⟨(claim_C3_amended c3State 0 (.shapeStroke ⟨⟨0, 0⟩, ⟨1, 1⟩⟩)).1 rfl,
   (claim_C3_amended c3State 0 (.shapeStroke ⟨⟨0, 0⟩, ⟨1, 1⟩⟩)).2 rfl rfl⟩

/-- Claim C10: a renderable stroke whose trash component is missing is
treated as trashed by `gen_svg_from_strokes` — it contributes nothing to the
output — and the call still succeeds. -/
theorem claim_C10_missing_trash_component (s : StrokesState)
    (gen : StrokeStyle → Vec2 → Except String String) (k : Nat)
    (hr : getComp s.render_components k = some ⟨true⟩)
    (ht : getComp s.trash_components k = none) :
    k ∉ StrokesState.gen_svg_contrib_keys s
    ∧ ∃ out, s.gen_svg_from_strokes gen = .ok out := by
  refine ⟨?_, ⟨_, rfl⟩⟩
  intro hk
  rw [StrokesState.gen_svg_contrib_keys] at hk
  obtain ⟨p, hp, hf⟩ := List.mem_filterMap.mp hk
  by_cases hcond : p.2.render && !((s.trashed p.1).getD true)
  · rw [if_pos hcond] at hf
    obtain rfl : p.1 = k := Option.some.inj hf
    rw [StrokesState.trashed, ht] at hcond
    simp at hcond
  · rw [if_neg hcond] at hf
    cases hf

/-- Witness state for claim C10: one renderable stroke with no trash
component at all. -/
def w10 : StrokesState :=
  ⟨[(5, .shapeStroke ⟨⟨0, 0⟩, ⟨1, 1⟩⟩)], [], [(5, ⟨true⟩)], [], none⟩

/-- Witness for claim C10 at the concrete state above. -/
theorem claim_C10_witness :
    5 ∉ StrokesState.gen_svg_contrib_keys w10
    ∧ ∃ out, w10.gen_svg_from_strokes c3gen = .ok out :=
  claim_C10_missing_trash_component w10 c3gen 5 rfl rfl

/-! ### Claim C9 -/

theorem dupPhase1_isSome :
    ∀ (comps : List (Nat × SelectionComponent)) (strokes : List (Nat × StrokeStyle))
      (next : Nat),
      (∀ p ∈ comps, p.2.selected = true → (getComp strokes p.1).isSome = true) →
      (StrokesState.dupPhase1 strokes next comps).isSome = true := by
  intro comps
  induction comps with
  | nil => intro strokes next _; rfl
  | cons p rest ih =>
    intro strokes next h
    obtain ⟨k, c⟩ := p
    by_cases hsel : c.selected
    · have hs := h (k, c) (List.mem_cons_self _ _) hsel
      obtain ⟨st, hst⟩ := Option.isSome_iff_exists.mp hs
      have hrest : ∀ q ∈ rest, q.2.selected = true →
          (getComp (strokes ++ [(next, st)]) q.1).isSome = true :=
        fun q hq hqsel =>
          getComp_isSome_append_left _ _ _ (h q (List.mem_cons_of_mem _ hq) hqsel)
      have hrec := ih (strokes ++ [(next, st)]) (next + 1) hrest
      obtain ⟨out, hout⟩ := Option.isSome_iff_exists.mp hrec
      obtain ⟨comps', strokes', dks⟩ := out
      simp [StrokesState.dupPhase1, hsel, hst, hout]
    · have hrest : ∀ q ∈ rest, q.2.selected = true →
          (getComp strokes q.1).isSome = true :=
        fun q hq hqsel => h q (List.mem_cons_of_mem _ hq) hqsel
      have hrec := ih strokes next hrest
      obtain ⟨out, hout⟩ := Option.isSome_iff_exists.mp hrec
      obtain ⟨comps', strokes', dks⟩ := out
      simp [StrokesState.dupPhase1, hsel, hout]

/-- A state violating the registry invariant: a selected selection component
whose key has no stroke. -/
def c9Bad : StrokesState := ⟨[], [(0, ⟨true⟩)], [], [], none⟩

/-- Claim C9: `duplicate_selection` unwraps the registry lookup of every
selected key, so whenever every selected selection-component key has a
stroke the failure branch is unreachable and the operation completes; on a
state violating that invariant it panics (modelled as `none`) instead of
logging and skipping. -/
theorem claim_C9_duplicate_unwrap_invariant :
    (∀ s : StrokesState,
        (∀ p ∈ s.selection_components, p.2.selected = true →
          (getComp s.strokes p.1).isSome = true) →
        s.duplicate_selection.isSome = true)
    ∧ c9Bad.duplicate_selection = none := by
  constructor
  · intro s h
    have hp1 := dupPhase1_isSome s.selection_components s.strokes (s.maxKey + 1) h
    obtain ⟨⟨comps', strokes', dks⟩, hout⟩ := Option.isSome_iff_exists.mp hp1
    rw [StrokesState.duplicate_selection, hout]
    rfl
  · rfl

/-- Witness state for claim C9: one selected stroke, present in the
registry. -/
def w9 : StrokesState :=
  ⟨[(0, .shapeStroke ⟨⟨0, 0⟩, ⟨1, 1⟩⟩)], [(0, ⟨true⟩)], [(0, ⟨true⟩)], [(0, ⟨false⟩)], none⟩

/-- Witness for claim C9: on the concrete valid state the duplication
completes. -/
theorem claim_C9_witness : w9.duplicate_selection.isSome = true :=
  claim_C9_duplicate_unwrap_invariant.1 w9 (by
    intro p hp _
    obtain rfl : p = (0, (⟨true⟩ : SelectionComponent)) := List.mem_singleton.mp hp
    rfl)

/-! ### Machinery for `duplicate_selection` -/

theorem le_foldr_max : ∀ (l : List Nat) (a : Nat), a ∈ l → a ≤ l.foldr max 0 := by
  intro l
  induction l with
  | nil => intro a ha; cases ha
  | cons b rest ih =>
    intro a ha
    rcases List.mem_cons.mp ha with rfl | h
    · exact Nat.le_max_left _ _
    · exact le_trans (ih a h) (Nat.le_max_right _ _)

theorem mem_strokes_le_maxKey (s : StrokesState) (p : Nat × StrokeStyle)
    (h : p ∈ s.strokes) : p.1 ≤ s.maxKey :=
  le_foldr_max _ _ (by
    refine List.mem_append.mpr (Or.inl ?_)
    refine List.mem_append.mpr (Or.inl ?_)
    refine List.mem_append.mpr (Or.inl ?_)
    exact List.mem_map.mpr ⟨p, h, rfl⟩)

theorem mem_sel_le_maxKey (s : StrokesState) (p : Nat × SelectionComponent)
    (h : p ∈ s.selection_components) : p.1 ≤ s.maxKey :=
  le_foldr_max _ _ (by
    refine List.mem_append.mpr (Or.inl ?_)
    refine List.mem_append.mpr (Or.inl ?_)
    refine List.mem_append.mpr (Or.inr ?_)
    exact List.mem_map.mpr ⟨p, h, rfl⟩)

theorem mem_render_le_maxKey (s : StrokesState) (p : Nat × RenderComponent)
    (h : p ∈ s.render_components) : p.1 ≤ s.maxKey :=
  le_foldr_max _ _ (by
    refine List.mem_append.mpr (Or.inl ?_)
    refine List.mem_append.mpr (Or.inr ?_)
    exact List.mem_map.mpr ⟨p, h, rfl⟩)

theorem mem_trash_le_maxKey (s : StrokesState) (p : Nat × TrashComponent)
    (h : p ∈ s.trash_components) : p.1 ≤ s.maxKey :=
  le_foldr_max _ _ (by
    refine List.mem_append.mpr (Or.inr ?_)
    exact List.mem_map.mpr ⟨p, h, rfl⟩)

theorem forall2_imp_mem {α β : Type} {R R' : α → β → Prop} :
    ∀ {l1 : List α} {l2 : List β}, List.Forall₂ R l1 l2 →
      (∀ a ∈ l1, ∀ b ∈ l2, R a b → R' a b) → List.Forall₂ R' l1 l2 := by
  intro l1 l2 h
  induction h with
  | nil => intro _; exact List.Forall₂.nil
  | cons hab htail ih =>
    intro himp
    refine List.Forall₂.cons
      (himp _ (List.mem_cons_self _ _) _ (List.mem_cons_self _ _) hab) (ih ?_)
    intro a ha b hb hr
    exact himp a (List.mem_cons_of_mem _ ha) b (List.mem_cons_of_mem _ hb) hr

/-- The selection components after phase one: every selected entry
deselected. -/
def deselComps (comps : List (Nat × SelectionComponent)) : List (Nat × SelectionComponent) :=
  comps.map (fun p => (p.1, if p.2.selected then (⟨false⟩ : SelectionComponent) else p.2))

/-- The selected keys of a component list, in store order (the body of
`selection_keys`). -/
def selKeysOf (comps : List (Nat × SelectionComponent)) : List Nat :=
  comps.filterMap (fun p => if p.2.selected then some p.1 else none)

theorem selection_keys_eq_selKeysOf (s : StrokesState) :
    s.selection_keys = selKeysOf s.selection_components := rfl

theorem mem_selKeysOf_lt {comps : List (Nat × SelectionComponent)} {next k : Nat}
    (hb : ∀ p ∈ comps, p.1 < next) (hk : k ∈ selKeysOf comps) : k < next := by
  obtain ⟨p, hp, hf⟩ := List.mem_filterMap.mp hk
  by_cases hsel : p.2.selected
  · rw [if_pos hsel] at hf
    obtain rfl : p.1 = k := Option.some.inj hf
    exact hb p hp
  · rw [if_neg hsel] at hf
    cases hf

/-- Inversion of phase one of `duplicate_selection`: on success the selected
entries are deselected, the registry is extended with one clone per selected
key under consecutive fresh keys, and the clones are the registry values of
the selected keys, in order. -/
theorem dupPhase1_spec :
    ∀ (comps : List (Nat × SelectionComponent)) (strokes : List (Nat × StrokeStyle))
      (next : Nat) out,
      StrokesState.dupPhase1 strokes next comps = some out →
      (∀ p ∈ comps, p.1 < next) →
      ∃ pairs : List (Nat × StrokeStyle),
        out = (deselComps comps, strokes ++ pairs, keysOf pairs)
        ∧ keysOf pairs = List.range' next (selKeysOf comps).length
        ∧ List.Forall₂
            (fun (ok : Nat) (pr : Nat × StrokeStyle) => getComp strokes ok = some pr.2)
            (selKeysOf comps) pairs := by
  intro comps
  induction comps with
  | nil =>
    intro strokes next out hout _
    refine ⟨[], ?_, rfl, List.Forall₂.nil⟩
    have : out = ([], strokes, []) := (Option.some.inj hout).symm
    simp [this, deselComps, keysOf]
  | cons p rest ih =>
    intro strokes next out hout hb
    obtain ⟨k, c⟩ := p
    by_cases hsel : c.selected
    · rw [StrokesState.dupPhase1, if_pos hsel] at hout
      cases hst : getComp strokes k with
      | none => rw [hst] at hout; cases hout
      | some st =>
        simp only [hst] at hout
        cases hrec : StrokesState.dupPhase1 (strokes ++ [(next, st)]) (next + 1) rest with
        | none => simp only [hrec] at hout; cases hout
        | some out' =>
          simp only [hrec] at hout
          obtain ⟨comps', strokes', dks⟩ := out'
          have hout' : out = ((k, (⟨false⟩ : SelectionComponent)) :: comps', strokes', next :: dks) :=
            (Option.some.inj hout).symm
          have hb' : ∀ q ∈ rest, q.1 < next + 1 :=
            fun q hq => Nat.lt_succ_of_lt (hb q (List.mem_cons_of_mem _ hq))
          obtain ⟨pairs', heq, hkeys, hf2⟩ := ih (strokes ++ [(next, st)]) (next + 1)
            (comps', strokes', dks) hrec hb'
          obtain ⟨hc', hs', hd'⟩ : comps' = deselComps rest
              ∧ strokes' = (strokes ++ [(next, st)]) ++ pairs'
              ∧ dks = keysOf pairs' := by
            have h1 := congrArg Prod.fst heq
            have h2 := congrArg (fun t => t.2.1) heq
            have h3 := congrArg (fun t => t.2.2) heq
            exact ⟨h1, h2, h3⟩
          refine ⟨(next, st) :: pairs', ?_, ?_, ?_⟩
          · rw [hout', hc', hs', hd']
            have hsk : selKeysOf ((k, c) :: rest) = k :: selKeysOf rest := by
              simp [selKeysOf, hsel]
            refine congrArg₂ Prod.mk ?_ (congrArg₂ Prod.mk ?_ rfl)
            · simp [deselComps, hsel]
            · simp [List.append_assoc]
          · have hsk : selKeysOf ((k, c) :: rest) = k :: selKeysOf rest := by
              simp [selKeysOf, hsel]
            rw [hsk]
            show next :: keysOf pairs' = _
            rw [hkeys, List.length_cons, List.range'_succ]
          · have hsk : selKeysOf ((k, c) :: rest) = k :: selKeysOf rest := by
              simp [selKeysOf, hsel]
            rw [hsk]
            refine List.Forall₂.cons hst ?_
            refine forall2_imp_mem hf2 ?_
            intro ok hok pr _ hr
            have hlt : ok < next := mem_selKeysOf_lt (fun q hq => hb q (List.mem_cons_of_mem _ hq)) hok
            rw [getComp_append_single_ne strokes ok next st (by omega)] at hr
            exact hr
    · rw [StrokesState.dupPhase1, if_neg hsel] at hout
      cases hrec : StrokesState.dupPhase1 strokes next rest with
      | none => simp only [hrec] at hout; cases hout
      | some out' =>
        simp only [hrec] at hout
        obtain ⟨comps', strokes', dks⟩ := out'
        have hout' : out = ((k, c) :: comps', strokes', dks) := (Option.some.inj hout).symm
        obtain ⟨pairs', heq, hkeys, hf2⟩ := ih strokes next (comps', strokes', dks) hrec
          (fun q hq => hb q (List.mem_cons_of_mem _ hq))
        obtain ⟨hc', hs', hd'⟩ : comps' = deselComps rest ∧ strokes' = strokes ++ pairs'
            ∧ dks = keysOf pairs' := by
          have h1 := congrArg Prod.fst heq
          have h2 := congrArg (fun t => t.2.1) heq
          have h3 := congrArg (fun t => t.2.2) heq
          exact ⟨h1, h2, h3⟩
        have hsk : selKeysOf ((k, c) :: rest) = selKeysOf rest := by
          simp [selKeysOf, hsel]
        refine ⟨pairs', ?_, by rw [hsk]; exact hkeys, by rw [hsk]; exact hf2⟩
        rw [hout', hc', hs', hd']
        refine congrArg₂ Prod.mk ?_ rfl
        simp [deselComps, hsel]

/-- The per-entry effect of folding `mapAt` over a key list: entries keyed
in the list get `f`, the others are untouched. -/
def condMap {α : Type} (dks : List Nat) (f : α → α) (p : Nat × α) : Nat × α :=
  (p.1, if p.1 ∈ dks then f p.2 else p.2)

theorem getComp_condMap {α : Type} (dks : List Nat) (f : α → α) :
    ∀ (l : List (Nat × α)) (k : Nat),
      getComp (l.map (condMap dks f)) k
        = (getComp l k).map (fun v => if k ∈ dks then f v else v) := by
  intro l
  induction l with
  | nil => intro k; rfl
  | cons p rest ih =>
    intro k
    obtain ⟨pk, pv⟩ := p
    by_cases hk : pk = k
    · subst hk
      simp [condMap, getComp]
    · simp [condMap, getComp, hk, ih]

theorem keysOf_condMap {α : Type} (dks : List Nat) (f : α → α) (l : List (Nat × α)) :
    keysOf (l.map (condMap dks f)) = keysOf l := by
  induction l with
  | nil => rfl
  | cons p rest ih => simp [condMap, keysOf] at ih ⊢

/-- Folding per-key mutations over a list of distinct keys is a single map
touching exactly the entries keyed by that list. -/
theorem foldl_mapAt {α : Type} (f : α → α) :
    ∀ (dks : List Nat) (l : List (Nat × α)), dks.Nodup →
      dks.foldl (fun acc d => mapAt acc d f) l = l.map (condMap dks f) := by
  intro dks
  induction dks with
  | nil =>
    intro l _
    have : ∀ p : Nat × α, condMap [] f p = p := fun p => by simp [condMap]
    rw [List.foldl_nil]
    calc l = l.map id := (List.map_id l).symm
      _ = l.map (condMap [] f) := List.map_congr_left (fun p _ => (this p).symm)
  | cons d rest ih =>
    intro l hnd
    rw [List.foldl_cons, ih _ (List.nodup_cons.mp hnd).2, mapAt, List.map_map]
    refine List.map_congr_left (fun p _ => ?_)
    simp only [Function.comp_apply]
    by_cases hd : p.1 = d
    · have hdnot : d ∉ rest := (List.nodup_cons.mp hnd).1
      rw [if_pos hd]
      simp [condMap, hd, hdnot, List.mem_cons]
    · rw [if_neg hd]
      simp [condMap, hd, List.mem_cons]

/-- Phase two of `duplicate_selection` on fresh distinct keys appends a
selected selection component and default render and trash components for
every duplicate key, and translates exactly the strokes keyed by the
duplicate keys. -/
theorem dupPhase2_spec (off : Vec2) :
    ∀ (dks : List Nat) (s0 : StrokesState), dks.Nodup →
      (∀ d ∈ dks, getComp s0.selection_components d = none) →
      (∀ d ∈ dks, getComp s0.render_components d = none) →
      (∀ d ∈ dks, getComp s0.trash_components d = none) →
      (StrokesState.dupPhase2 off dks s0).selection_components
          = s0.selection_components ++ dks.map (fun d => (d, (⟨true⟩ : SelectionComponent)))
      ∧ (StrokesState.dupPhase2 off dks s0).render_components
          = s0.render_components ++ dks.map (fun d => (d, RenderComponent.default))
      ∧ (StrokesState.dupPhase2 off dks s0).trash_components
          = s0.trash_components ++ dks.map (fun d => (d, TrashComponent.default))
      ∧ (StrokesState.dupPhase2 off dks s0).strokes
          = dks.foldl (fun l d => mapAt l d (fun st => st.translate off)) s0.strokes
      ∧ (StrokesState.dupPhase2 off dks s0).selection_bounds = s0.selection_bounds := by
  intro dks
  induction dks with
  | nil =>
    intro s0 _ _ _ _
    refine ⟨?_, ?_, ?_, rfl, rfl⟩ <;> simp [StrokesState.dupPhase2]
  | cons d rest ih =>
    intro s0 hnd h1 h2 h3
    have hd1 : getComp s0.selection_components d = none := h1 d (List.mem_cons_self _ _)
    have hd2 : getComp s0.render_components d = none := h2 d (List.mem_cons_self _ _)
    have hd3 : getComp s0.trash_components d = none := h3 d (List.mem_cons_self _ _)
    have hdnot : d ∉ rest := (List.nodup_cons.mp hnd).1
    have hstep : StrokesState.dupPhase2 off (d :: rest) s0
        = StrokesState.dupPhase2 off rest
          { s0 with
            selection_components := s0.selection_components ++ [(d, ⟨true⟩)],
            render_components := s0.render_components ++ [(d, RenderComponent.default)],
            trash_components := s0.trash_components ++ [(d, TrashComponent.default)],
            strokes := mapAt s0.strokes d (fun st => st.translate off) } := by
      rw [StrokesState.dupPhase2, List.foldl_cons]
      rw [StrokesState.dupPhase2]
      refine congrArg (List.foldl _ ·  rest) ?_
      rw [StrokesState.update_rendering_for_stroke]
      rw [insertComp, if_neg (by rw [hd1]; exact fun h => Bool.noConfusion h),
        insertComp, if_neg (by rw [hd2]; exact fun h => Bool.noConfusion h),
        insertComp, if_neg (by rw [hd3]; exact fun h => Bool.noConfusion h)]
    have hrest1 : ∀ d' ∈ rest,
        getComp (s0.selection_components ++ [(d, (⟨true⟩ : SelectionComponent))]) d' = none := by
      intro d' hd'
      have hne : d ≠ d' := fun h => hdnot (h ▸ hd')
      rw [getComp_append_single_ne _ _ _ _ hne]
      exact h1 d' (List.mem_cons_of_mem _ hd')
    have hrest2 : ∀ d' ∈ rest,
        getComp (s0.render_components ++ [(d, RenderComponent.default)]) d' = none := by
      intro d' hd'
      have hne : d ≠ d' := fun h => hdnot (h ▸ hd')
      rw [getComp_append_single_ne _ _ _ _ hne]
      exact h2 d' (List.mem_cons_of_mem _ hd')
    have hrest3 : ∀ d' ∈ rest,
        getComp (s0.trash_components ++ [(d, TrashComponent.default)]) d' = none := by
      intro d' hd'
      have hne : d ≠ d' := fun h => hdnot (h ▸ hd')
      rw [getComp_append_single_ne _ _ _ _ hne]
      exact h3 d' (List.mem_cons_of_mem _ hd')
    obtain ⟨i1, i2, i3, i4, i5⟩ := ih
      { s0 with
          selection_components := s0.selection_components ++ [(d, ⟨true⟩)],
          render_components := s0.render_components ++ [(d, RenderComponent.default)],
          trash_components := s0.trash_components ++ [(d, TrashComponent.default)],
          strokes := mapAt s0.strokes d (fun st => st.translate off) }
      (List.nodup_cons.mp hnd).2 hrest1 hrest2 hrest3
    rw [hstep]
    refine ⟨?_, ?_, ?_, ?_, ?_⟩
    · rw [i1]
      simp [List.append_assoc]
    · rw [i2]
      simp [List.append_assoc]
    · rw [i3]
      simp [List.append_assoc]
    · rw [i4]
      rfl
    · rw [i5]

theorem selected_some_true {s : StrokesState} {k : Nat} (h : s.selected k = some true) :
    ∃ c, getComp s.selection_components k = some c ∧ c.selected = true := by
  rw [StrokesState.selected] at h
  cases hg : getComp s.selection_components k with
  | none => rw [hg] at h; cases h
  | some c => exact ⟨c, rfl, by rw [hg] at h; exact Option.some.inj h⟩

/-- What `duplicate_selection` guarantees about its result: the registry
grows by the selection size, the originals are deselected, and the fresh
consecutive keys hold selected duplicates with default render and trash
components whose bounds are the originals' bounds shifted by `(20, 20)`. -/
def dupPost (s s' : StrokesState) : Prop :=
  s'.strokes.length = s.strokes.length + s.selection_len
  ∧ (∀ k, s.selected k = some true → s'.selected k = some false)
  ∧ List.Forall₂ (fun (ok dk : Nat) =>
      s'.selected dk = some true
      ∧ getComp s'.render_components dk = some RenderComponent.default
      ∧ getComp s'.trash_components dk = some TrashComponent.default
      ∧ ∃ st, getComp s.strokes ok = some st
          ∧ getComp s'.strokes dk = some (st.translate ⟨20, 20⟩)
          ∧ (getComp s'.strokes dk).map StrokeStyle.bounds
              = some (aabb_translate st.bounds ⟨20, 20⟩))
    s.selection_keys (List.range' (s.maxKey + 1) s.selection_len)

/-- Claim C8: on a selection of size `k`, `duplicate_selection` adds exactly
`k` entities, deselects the `k` originals, selects the `k` duplicates with
default render and trash components, and each duplicate's bounds are the
corresponding original's bounds shifted by the fixed offset `(20, 20)`. -/
theorem claim_C8_duplicate_selection (s s' : StrokesState)
    (hdup : s.duplicate_selection = some s') : dupPost s s' := by
  rw [StrokesState.duplicate_selection] at hdup
  cases hp1 : StrokesState.dupPhase1 s.strokes (s.maxKey + 1) s.selection_components with
  | none => rw [hp1] at hdup; cases hdup
  | some out =>
    obtain ⟨comps', strokes', dks⟩ := out
    simp only [hp1] at hdup
    have hbk : ∀ p ∈ s.selection_components, p.1 < s.maxKey + 1 :=
      fun p hp => Nat.lt_succ_of_le (mem_sel_le_maxKey s p hp)
    obtain ⟨pairs, hout, hkeys, hf2⟩ := dupPhase1_spec s.selection_components s.strokes
      (s.maxKey + 1) (comps', strokes', dks) hp1 hbk
    obtain ⟨hc', hs'', hd'⟩ : comps' = deselComps s.selection_components
        ∧ strokes' = s.strokes ++ pairs ∧ dks = keysOf pairs := by
      have h1 := congrArg Prod.fst hout
      have h2 := congrArg (fun t => t.2.1) hout
      have h3 := congrArg (fun t => t.2.2) hout
      exact ⟨h1, h2, h3⟩
    subst hc' hs'' hd'
    have hS := (Option.some.inj hdup).symm
    have hdnodup : (keysOf pairs).Nodup := by
      rw [hkeys]; exact List.nodup_range' _ _
    have hdge : ∀ d ∈ keysOf pairs, s.maxKey + 1 ≤ d := by
      intro d hd
      rw [hkeys] at hd
      exact (List.mem_range'_1.mp hd).1
    have hselB : ∀ p ∈ deselComps s.selection_components, p.1 ≤ s.maxKey := by
      intro p hp
      obtain ⟨q, hq, hpq⟩ := List.mem_map.mp hp
      have hpk : p.1 = q.1 := by rw [← hpq]
      rw [hpk]
      exact mem_sel_le_maxKey s q hq
    have hstB : ∀ p ∈ s.strokes, p.1 ≤ s.maxKey := fun p hp => mem_strokes_le_maxKey s p hp
    obtain ⟨e1, e2, e3, e4, e5⟩ := dupPhase2_spec ⟨20, 20⟩ (keysOf pairs)
      { s with
          selection_components := deselComps s.selection_components,
          strokes := s.strokes ++ pairs }
      hdnodup
      (fun d hd => getComp_eq_none_of_lt _ s.maxKey d hselB
        (Nat.lt_of_succ_le (hdge d hd)))
      (fun d hd => getComp_eq_none_of_lt _ s.maxKey d
        (fun p hp => mem_render_le_maxKey s p hp) (Nat.lt_of_succ_le (hdge d hd)))
      (fun d hd => getComp_eq_none_of_lt _ s.maxKey d
        (fun p hp => mem_trash_le_maxKey s p hp) (Nat.lt_of_succ_le (hdge d hd)))
    rw [foldl_mapAt _ _ _ hdnodup] at e4
    have hsel' : s'.selection_components
        = deselComps s.selection_components
            ++ (keysOf pairs).map (fun d => (d, (⟨true⟩ : SelectionComponent))) := by
      rw [hS]; exact e1
    have hren' : s'.render_components
        = s.render_components ++ (keysOf pairs).map (fun d => (d, RenderComponent.default)) := by
      rw [hS]; exact e2
    have htr' : s'.trash_components
        = s.trash_components ++ (keysOf pairs).map (fun d => (d, TrashComponent.default)) := by
      rw [hS]; exact e3
    have hstr' : s'.strokes
        = (s.strokes ++ pairs).map (condMap (keysOf pairs) (fun st => st.translate ⟨20, 20⟩)) := by
      rw [hS]; exact e4
    have hplen : pairs.length = s.selection_len := by
      have hl := congrArg List.length hkeys
      simpa [keysOf] using hl
    refine ⟨?_, ?_, ?_⟩
    · rw [hstr', List.length_map, List.length_append, hplen]
    · intro k hk
      obtain ⟨c, hc, hcsel⟩ := selected_some_true hk
      have hdesel : getComp (deselComps s.selection_components) k
          = (getComp s.selection_components k).map
              (fun c => if c.selected then (⟨false⟩ : SelectionComponent) else c) :=
        getComp_map_pair s.selection_components
          (fun _ c => if c.selected then (⟨false⟩ : SelectionComponent) else c) k
      rw [StrokesState.selected, hsel', getComp_append, hdesel, hc]
      simp [hcsel]
    · have hlen : s.selection_len = (selKeysOf s.selection_components).length := rfl
      rw [selection_keys_eq_selKeysOf, hlen, ← hkeys]
      rw [show keysOf pairs = pairs.map Prod.fst from rfl]
      refine List.forall₂_map_right_iff.mpr ?_
      refine forall2_imp_mem hf2 ?_
      intro ok _ pr hpr hr
      have hd : pr.1 ∈ keysOf pairs := List.mem_map.mpr ⟨pr, hpr, rfl⟩
      have hge : s.maxKey + 1 ≤ pr.1 := hdge _ hd
      have hlt : s.maxKey < pr.1 := Nat.lt_of_succ_le hge
      have hfirst : getComp
          (s.strokes.map (condMap (keysOf pairs) (fun st => st.translate ⟨20, 20⟩))) pr.1
          = none := by
        rw [getComp_condMap, getComp_eq_none_of_lt _ s.maxKey pr.1 hstB hlt]
        rfl
      have hsecond : getComp
          (pairs.map (condMap (keysOf pairs) (fun st => st.translate ⟨20, 20⟩))) pr.1
          = some (pr.2.translate ⟨20, 20⟩) :=
        getComp_eq_some_of_mem _ _ _
          (by rw [keysOf_condMap]; exact hdnodup)
          (List.mem_map.mpr ⟨pr, hpr, by simp [condMap, hd]⟩)
      have hfin : getComp s'.strokes pr.1 = some (pr.2.translate ⟨20, 20⟩) := by
        rw [hstr', List.map_append, getComp_append, hfirst, hsecond]
      refine ⟨?_, ?_, ?_, pr.2, hr, hfin, ?_⟩
      · rw [StrokesState.selected, hsel', getComp_append,
          getComp_eq_none_of_lt _ s.maxKey pr.1 hselB hlt, getComp_map_const]
        simp [hd]
      · rw [hren', getComp_append,
          getComp_eq_none_of_lt _ s.maxKey pr.1 (fun p hp => mem_render_le_maxKey s p hp) hlt,
          getComp_map_const]
        simp [hd]
      · rw [htr', getComp_append,
          getComp_eq_none_of_lt _ s.maxKey pr.1 (fun p hp => mem_trash_le_maxKey s p hp) hlt,
          getComp_map_const]
        simp [hd]
      · rw [hfin, Option.map_some', StrokeStyle.translate_bounds]

/-- Witness state for claim C8: one selected stroke with key `0`. -/
def w8 : StrokesState :=
  ⟨[(0, .shapeStroke ⟨⟨0, 0⟩, ⟨1, 1⟩⟩)], [(0, ⟨true⟩)], [(0, ⟨true⟩)], [(0, ⟨false⟩)], none⟩

/-- The state after duplicating the selection of `w8`: the clone lives at
the fresh key `1`, selected, with default components, shifted by
`(20, 20)`. -/
def w8res : StrokesState :=
  ⟨[(0, .shapeStroke ⟨⟨0, 0⟩, ⟨1, 1⟩⟩), (1, .shapeStroke ⟨⟨20, 20⟩, ⟨21, 21⟩⟩)],
   [(0, ⟨false⟩), (1, ⟨true⟩)], [(0, ⟨true⟩), (1, ⟨true⟩)], [(0, ⟨false⟩), (1, ⟨false⟩)],
   some ⟨⟨20, 20⟩, ⟨21, 21⟩⟩⟩

/-- Witness for claim C8 at the concrete one-stroke state. -/
theorem claim_C8_witness : dupPost w8 w8res :=
  claim_C8_duplicate_selection w8 w8res (by
    show StrokesState.duplicate_selection w8 = some w8res
    simp only [w8, w8res, StrokesState.duplicate_selection, StrokesState.dupPhase1,
      StrokesState.dupPhase2, StrokesState.maxKey, keysOf, getComp, insertComp, setComp,
      mapAt, StrokesState.update_selection_bounds, StrokesState.gen_bounds,
      StrokesState.selection_keys, StrokesState.unionList, StrokesState.trashed,
      StrokesState.update_rendering_for_stroke, StrokeStyle.translate, aabb_translate,
      Vec2.add, RenderComponent.default, TrashComponent.default,
      List.map, List.foldr, List.foldl, List.filterMap, List.append_nil, List.cons_append,
      List.nil_append, reduceIte, StrokeStyle.bounds]
    norm_num)

/-! ### Claim C2: the aggregate selection bounds cache -/

/-- The bounds of the registry entities that are simultaneously selected and
not trashed, enumerated in selection-component order. -/
def selection_list (s : StrokesState) : List AABB :=
  s.selection_components.filterMap (fun p =>
    if p.2.selected then
      match getComp s.strokes p.1 with
      | some st => if s.trashed p.1 ≠ some true then some st.bounds else none
      | none => none
    else none)

/-- The recomputed aggregate of the selection: the union of the bounds of
all registry entities that are simultaneously selected and not trashed,
`none` when there is no such entity. -/
def selection_union (s : StrokesState) : Option AABB :=
  StrokesState.unionList (selection_list s)

/-- The cache invariant of the spec: the cached aggregate selection bounds
equal the recomputed union over the selected, non-trashed entities (and are
`none` exactly when that set is empty). -/
def bounds_cache_inv (s : StrokesState) : Prop :=
  s.selection_bounds = selection_union s

instance (s : StrokesState) : Decidable (bounds_cache_inv s) := by
  unfold bounds_cache_inv
  infer_instance

/-- The recompute performed by `update_selection_bounds` is exactly the
selected-and-not-trashed union. -/
theorem gen_bounds_selection_keys (s : StrokesState) :
    s.gen_bounds s.selection_keys = selection_union s := by
  rw [StrokesState.gen_bounds, StrokesState.selection_keys, List.filterMap_filterMap,
    selection_union, selection_list]
  refine congrArg StrokesState.unionList (List.filterMap_congr (fun p _ => ?_))
  by_cases hsel : p.2.selected
  · rw [if_pos hsel, if_pos hsel, Option.some_bind]
  · rw [if_neg hsel, if_neg hsel, Option.none_bind]

/-- `update_selection_bounds` establishes the cache invariant on any
state. -/
theorem inv_update_selection_bounds (s : StrokesState) :
    bounds_cache_inv s.update_selection_bounds := by
  show s.gen_bounds s.selection_keys = selection_union s.update_selection_bounds
  rw [gen_bounds_selection_keys]
  rfl

/-- Folding the merge over a list commutes with any merge-respecting map. -/
theorem unionList_map (g : AABB → AABB)
    (hg : ∀ a b, g (AABB.merge a b) = AABB.merge (g a) (g b)) :
    ∀ l : List AABB, StrokesState.unionList (l.map g) = (StrokesState.unionList l).map g := by
  have haux : ∀ (bs : List AABB) (b : AABB),
      (bs.map g).foldl AABB.merge (g b) = g (bs.foldl AABB.merge b) := by
    intro bs
    induction bs with
    | nil => intro b; rfl
    | cons a rest ih =>
      intro b
      rw [List.map_cons, List.foldl_cons, List.foldl_cons, ← hg, ih]
  intro l
  cases l with
  | nil => rfl
  | cons b bs =>
    show some ((bs.map g).foldl AABB.merge (g b)) = some (g (bs.foldl AABB.merge b))
    rw [haux]

/-- Translation distributes over the merge of two boxes. -/
theorem aabb_translate_merge (off : Vec2) (a b : AABB) :
    aabb_translate (AABB.merge a b) off
      = AABB.merge (aabb_translate a off) (aabb_translate b off) := by
  simp only [aabb_translate, AABB.merge, Vec2.add, AABB.mk.injEq, Vec2.mk.injEq]
  refine ⟨⟨?_, ?_⟩, ?_, ?_⟩
  · exact (min_add_add_right _ _ _).symm
  · exact (min_add_add_right _ _ _).symm
  · exact (max_add_add_right _ _ _).symm
  · exact (max_add_add_right _ _ _).symm

theorem affine_min (a b m c s : ℚ) (hs : 0 ≤ s) :
    (min a b - m) * s + c = min ((a - m) * s + c) ((b - m) * s + c) := by
  rcases le_total a b with h | h
  · rw [min_eq_left h, min_eq_left]
    exact add_le_add_right (mul_le_mul_of_nonneg_right (by linarith) hs) c
  · rw [min_eq_right h, min_eq_right]
    exact add_le_add_right (mul_le_mul_of_nonneg_right (by linarith) hs) c

theorem affine_max (a b m c s : ℚ) (hs : 0 ≤ s) :
    (max a b - m) * s + c = max ((a - m) * s + c) ((b - m) * s + c) := by
  rcases le_total a b with h | h
  · rw [max_eq_right h, max_eq_right]
    exact add_le_add_right (mul_le_mul_of_nonneg_right (by linarith) hs) c
  · rw [max_eq_left h, max_eq_left]
    exact add_le_add_right (mul_le_mul_of_nonneg_right (by linarith) hs) c

/-- Closed form of the rescale map: each corner coordinate is an affine
image of the corresponding input coordinate. -/
theorem calcBounds_eq (O nb b : AABB) :
    calcBounds O nb b =
      ⟨⟨(b.mins.x - O.mins.x) * ((nb.maxs.x - nb.mins.x) / (O.maxs.x - O.mins.x)) + nb.mins.x,
        (b.mins.y - O.mins.y) * ((nb.maxs.y - nb.mins.y) / (O.maxs.y - O.mins.y)) + nb.mins.y⟩,
       ⟨(b.maxs.x - O.mins.x) * ((nb.maxs.x - nb.mins.x) / (O.maxs.x - O.mins.x)) + nb.mins.x,
        (b.maxs.y - O.mins.y) * ((nb.maxs.y - nb.mins.y) / (O.maxs.y - O.mins.y)) + nb.mins.y⟩⟩ := by
  simp only [calcBounds, StrokesState.calc_new_stroke_bounds, StrokeStyle.bounds,
    AABB.mk.injEq, Vec2.mk.injEq]
  refine ⟨⟨?_, ?_⟩, ?_, ?_⟩ <;> ring

/-- The rescale map distributes over merge when both scale factors are
nonnegative. -/
theorem calcBounds_merge (O nb : AABB)
    (hsx : 0 ≤ (nb.maxs.x - nb.mins.x) / (O.maxs.x - O.mins.x))
    (hsy : 0 ≤ (nb.maxs.y - nb.mins.y) / (O.maxs.y - O.mins.y))
    (a b : AABB) :
    calcBounds O nb (AABB.merge a b)
      = AABB.merge (calcBounds O nb a) (calcBounds O nb b) := by
  rw [calcBounds_eq, calcBounds_eq, calcBounds_eq]
  simp only [AABB.merge, AABB.mk.injEq, Vec2.mk.injEq]
  exact ⟨⟨affine_min _ _ _ _ _ hsx, affine_min _ _ _ _ _ hsy⟩,
    affine_max _ _ _ _ _ hsx, affine_max _ _ _ _ _ hsy⟩

/-- Rescaling the old aggregate bounds themselves lands exactly on the new
bounds, provided the old bounds are non-degenerate. -/
theorem calcBounds_self (O nb : AABB)
    (hx : O.maxs.x - O.mins.x ≠ 0) (hy : O.maxs.y - O.mins.y ≠ 0) :
    calcBounds O nb O = nb := by
  obtain ⟨⟨nx1, ny1⟩, nx2, ny2⟩ := nb
  rw [calcBounds_eq]
  simp only [AABB.mk.injEq, Vec2.mk.injEq]
  refine ⟨⟨?_, ?_⟩, ?_, ?_⟩ <;> field_simp

/-- Looking up a key after the per-selected-stroke transformation used by
`translate_selection` and `resize_selection`. -/
theorem getComp_selected_map (comps : List (Nat × SelectionComponent))
    (t : StrokeStyle → StrokeStyle) :
    ∀ (l : List (Nat × StrokeStyle)) (k : Nat),
      getComp (l.map (fun q =>
        match getComp comps q.1 with
        | some c => if c.selected then (q.1, t q.2) else q
        | none => q)) k
      = (getComp l k).map (fun st =>
          match getComp comps k with
          | some c => if c.selected then t st else st
          | none => st) := by
  intro l
  induction l with
  | nil => intro k; rfl
  | cons q rest ih =>
    intro k
    obtain ⟨qk, qv⟩ := q
    by_cases hk : qk = k
    · subst hk
      cases hc : getComp comps qk with
      | none => simp [getComp, hc]
      | some c =>
        by_cases hsel : c.selected <;> simp [getComp, hc, hsel]
    · cases hc : getComp comps qk with
      | none => simp [getComp, hc, hk, ih]
      | some c =>
        by_cases hsel : c.selected <;> simp [getComp, hc, hsel, hk, ih]

/-- Transforming every selected stroke maps the selected-and-not-trashed
bounds list through the bounds-level image of the transformation. -/
theorem selection_list_strokes_map (s : StrokesState) (b : Option AABB)
    (t : StrokeStyle → StrokeStyle) (g : AABB → AABB)
    (hbnds : ∀ st : StrokeStyle, (t st).bounds = g st.bounds)
    (hnd : (keysOf s.selection_components).Nodup) :
    selection_list
      { s with
          strokes := s.strokes.map (fun q =>
            match getComp s.selection_components q.1 with
            | some c => if c.selected then (q.1, t q.2) else q
            | none => q),
          selection_bounds := b }
      = (selection_list s).map g := by
  rw [selection_list, selection_list, List.map_filterMap]
  refine List.filterMap_congr (fun p hp => ?_)
  by_cases hsel : p.2.selected
  · rw [if_pos hsel, if_pos hsel]
    have hpmem : (p.1, p.2) ∈ s.selection_components := by
      simpa using hp
    have hcomp : getComp s.selection_components p.1 = some p.2 :=
      getComp_eq_some_of_mem _ _ _ hnd hpmem
    simp only [StrokesState.trashed]
    rw [getComp_selected_map]
    cases hst : getComp s.strokes p.1 with
    | none => rfl
    | some st =>
      simp only [Option.map_some', hcomp, hsel, reduceIte]
      by_cases htrash : (getComp s.trash_components p.1).map TrashComponent.trashed ≠ some true
      · simp [htrash, hbnds st]
      · simp [htrash]
  · rw [if_neg hsel, if_neg hsel]
    rfl

/-- The specialization of the bounds-list map to `translate_selection`. -/
theorem selection_list_translate (s : StrokesState) (off : Vec2)
    (hnd : (keysOf s.selection_components).Nodup) :
    selection_list
      { s with
          strokes := s.strokes.map (fun p =>
            match getComp s.selection_components p.1 with
            | some c => if c.selected then (p.1, p.2.translate off) else p
            | none => p),
          selection_bounds := s.selection_bounds.map (fun b => aabb_translate b off) }
      = (selection_list s).map (fun b => aabb_translate b off) :=
  selection_list_strokes_map s (s.selection_bounds.map (fun b => aabb_translate b off))
    (fun st => st.translate off) (fun b => aabb_translate b off)
    (fun st => StrokeStyle.translate_bounds st off) hnd

/-- The specialization of the bounds-list map to `resize_selection`. -/
theorem selection_list_resize (s : StrokesState) (O nb : AABB)
    (hnd : (keysOf s.selection_components).Nodup) :
    selection_list
      { s with
          strokes := s.strokes.map (fun p =>
            match getComp s.selection_components p.1 with
            | some c =>
              if c.selected then
                (p.1, p.2.resize (StrokesState.calc_new_stroke_bounds p.2 O nb))
              else p
            | none => p),
          selection_bounds := some nb }
      = (selection_list s).map (calcBounds O nb) :=
  selection_list_strokes_map s (some nb)
    (fun st => st.resize (StrokesState.calc_new_stroke_bounds st O nb)) (calcBounds O nb)
    (fun st => by rw [StrokeStyle.resize_bounds, calc_new_stroke_bounds_eq]) hnd

/-- `set_selected` preserves the cache invariant: it either recomputes the
cache or does nothing. -/
theorem inv_set_selected (s : StrokesState) (k : Nat) (v : Bool)
    (h : bounds_cache_inv s) : bounds_cache_inv (s.set_selected k v) := by
  rw [StrokesState.set_selected]
  by_cases hc : (getComp s.selection_components k).isSome
  · rw [if_pos hc]
    exact inv_update_selection_bounds _
  · rw [if_neg hc]
    exact h

/-- `deselect` establishes the cache invariant: nothing remains selected and
the cache is cleared. -/
theorem inv_deselect (s : StrokesState) : bounds_cache_inv s.deselect := by
  have hnil : selection_list s.deselect = [] := by
    rw [selection_list, StrokesState.deselect, List.filterMap_map]
    exact List.filterMap_eq_nil_iff.mpr (fun a _ => rfl)
  show s.deselect.selection_bounds = selection_union s.deselect
  rw [selection_union, hnil]
  rfl

/-- `translate_selection` preserves the cache invariant. -/
theorem inv_translate_selection (s : StrokesState) (off : Vec2)
    (hnd : (keysOf s.selection_components).Nodup)
    (h : bounds_cache_inv s) : bounds_cache_inv (s.translate_selection off) := by
  rw [bounds_cache_inv, selection_union] at h ⊢
  simp only [StrokesState.translate_selection, StrokesState.update_rendering_for_selection]
  rw [selection_list_translate s off hnd,
    unionList_map _ (fun a b => aabb_translate_merge off a b), ← h]

/-- `resize_selection` with a cached aggregate bounds preserves the cache
invariant when the old bounds are non-degenerate and the new bounds are
well-formed. -/
theorem inv_resize_selection (s : StrokesState) (nb O : AABB)
    (hnd : (keysOf s.selection_components).Nodup)
    (h : bounds_cache_inv s) (hO : s.selection_bounds = some O)
    (hdx : O.mins.x < O.maxs.x) (hdy : O.mins.y < O.maxs.y)
    (hnx : nb.mins.x ≤ nb.maxs.x) (hny : nb.mins.y ≤ nb.maxs.y) :
    bounds_cache_inv (s.resize_selection nb) := by
  rw [bounds_cache_inv, selection_union] at h ⊢
  simp only [StrokesState.resize_selection, hO, StrokesState.update_rendering_for_selection]
  rw [selection_list_resize s O nb hnd]
  have hsx : 0 ≤ (nb.maxs.x - nb.mins.x) / (O.maxs.x - O.mins.x) :=
    div_nonneg (by linarith) (by linarith)
  have hsy : 0 ≤ (nb.maxs.y - nb.mins.y) / (O.maxs.y - O.mins.y) :=
    div_nonneg (by linarith) (by linarith)
  rw [unionList_map _ (calcBounds_merge O nb hsx hsy), ← h, hO, Option.map_some',
    calcBounds_self O nb (by intro hx; linarith [hdx]) (by intro hy; linarith [hdy])]

/-- `resize_selection` with no cached aggregate bounds is a no-op and hence
preserves the cache invariant. -/
theorem inv_resize_selection_none (s : StrokesState) (nb : AABB)
    (hnone : s.selection_bounds = none) (h : bounds_cache_inv s) :
    bounds_cache_inv (s.resize_selection nb) := by
  simp only [StrokesState.resize_selection, hnone]
  exact h

/-- `duplicate_selection` re-establishes the cache invariant on success. -/
theorem inv_duplicate_selection (s s' : StrokesState)
    (h : s.duplicate_selection = some s') : bounds_cache_inv s' := by
  rw [StrokesState.duplicate_selection] at h
  cases hp1 : StrokesState.dupPhase1 s.strokes (s.maxKey + 1) s.selection_components with
  | none => rw [hp1] at h; cases h
  | some out =>
    obtain ⟨comps', strokes', dks⟩ := out
    simp only [hp1] at h
    rw [← Option.some.inj h]
    exact inv_update_selection_bounds _

/-- `update_selection_for_selector` re-establishes the cache invariant
whenever it reports a change. -/
theorem inv_selector_changed (s : StrokesState) (sel : Selector) (vp : Option AABB)
    (s' : StrokesState) (h : s.update_selection_for_selector sel vp = (s', true)) :
    bounds_cache_inv s' := by
  cases hb : sel.bounds with
  | none =>
    rw [StrokesState.update_selection_for_selector] at h
    simp only [hb] at h
    cases congrArg Prod.snd h
  | some sb =>
    rw [selector_some_eq s sel vp sb hb] at h
    by_cases hc : (scanned s sb vp).selection_len ≠ s.selection_len
    · rw [if_pos hc] at h
      injection h with h1 _
      rw [← h1]
      exact inv_update_selection_bounds _
    · rw [if_neg hc] at h
      injection h with _ h2
      cases h2

/-- The counterexample state for the cache invariant: stroke `0` selected
with a consistent cache, stroke `1` unselected. -/
def c2s : StrokesState :=
  ⟨[(0, .shapeStroke ⟨⟨0, 0⟩, ⟨1, 1⟩⟩), (1, .shapeStroke ⟨⟨2, 2⟩, ⟨3, 3⟩⟩)],
   [(0, ⟨true⟩), (1, ⟨false⟩)],
   [(0, ⟨true⟩), (1, ⟨true⟩)],
   [(0, ⟨false⟩), (1, ⟨false⟩)],
   some ⟨⟨0, 0⟩, ⟨1, 1⟩⟩⟩

/-- A selector that contains exactly stroke `1`. -/
def c2sel : Selector := ⟨some ⟨⟨2, 2⟩, ⟨3, 3⟩⟩⟩

/-- Counterexample to claim C2 as stated: starting from a state satisfying
the cache invariant, `update_selection_for_selector` swaps the selection
from stroke `0` to stroke `1`; the selected count is unchanged, so the call
reports no change and leaves the cached aggregate bounds stale — they no
longer equal the recomputed union over the selected, non-trashed set. -/
theorem claim_C2_counterexample :
    bounds_cache_inv c2s
    ∧ (c2s.update_selection_for_selector c2sel none).2 = false
    ∧ ¬ bounds_cache_inv (c2s.update_selection_for_selector c2sel none).1 := by
  decide

/-- Claim C2 (amended): `set_selected`, `deselect`, `translate_selection`,
`resize_selection` (under non-degenerate old bounds and well-formed new
bounds) and `duplicate_selection` preserve the invariant that the cached
aggregate selection bounds equal the recomputed union of the bounds of the
selected, non-trashed registry entities (`none` exactly when that set is
empty); `update_selection_for_selector` re-establishes it whenever it
reports a selection-count change, but an equal-count membership swap leaves
the cache stale. -/
theorem claim_C2_bounds_cache_invariant :
    (∀ (s : StrokesState) (k : Nat) (v : Bool),
        bounds_cache_inv s → bounds_cache_inv (s.set_selected k v))
    ∧ (∀ s : StrokesState, bounds_cache_inv s.deselect)
    ∧ (∀ (s : StrokesState) (off : Vec2), (keysOf s.selection_components).Nodup →
        bounds_cache_inv s → bounds_cache_inv (s.translate_selection off))
    ∧ (∀ (s : StrokesState) (nb O : AABB), (keysOf s.selection_components).Nodup →
        bounds_cache_inv s → s.selection_bounds = some O →
        O.mins.x < O.maxs.x → O.mins.y < O.maxs.y →
        nb.mins.x ≤ nb.maxs.x → nb.mins.y ≤ nb.maxs.y →
        bounds_cache_inv (s.resize_selection nb))
    ∧ (∀ (s : StrokesState) (nb : AABB), s.selection_bounds = none →
        bounds_cache_inv s → bounds_cache_inv (s.resize_selection nb))
    ∧ (∀ (s s' : StrokesState), s.duplicate_selection = some s' → bounds_cache_inv s')
    ∧ (∀ (s : StrokesState) (sel : Selector) (vp : Option AABB) (s' : StrokesState),
        s.update_selection_for_selector sel vp = (s', true) → bounds_cache_inv s') :=
  ⟨inv_set_selected, inv_deselect, inv_translate_selection,
   fun s nb O hnd h hO hdx hdy hnx hny => inv_resize_selection s nb O hnd h hO hdx hdy hnx hny,
   inv_resize_selection_none, inv_duplicate_selection, inv_selector_changed⟩

/-- Witness state for the amended cache invariant: one selected stroke with
a consistent cache. -/
def w2 : StrokesState :=
  ⟨[(0, .shapeStroke ⟨⟨0, 0⟩, ⟨2, 1⟩⟩)], [(0, ⟨true⟩)], [(0, ⟨true⟩)], [(0, ⟨false⟩)],
   some ⟨⟨0, 0⟩, ⟨2, 1⟩⟩⟩

/-- Witness for the amended claim C2: the invariant survives a concrete
`set_selected`, `translate_selection` and non-degenerate
`resize_selection`. -/
theorem claim_C2_witness :
    bounds_cache_inv (w2.set_selected 0 true)
    ∧ bounds_cache_inv (w2.translate_selection ⟨5, 5⟩)
    ∧ bounds_cache_inv (w2.resize_selection ⟨⟨0, 0⟩, ⟨4, 2⟩⟩) :=
  ⟨claim_C2_bounds_cache_invariant.1 w2 0 true (by decide),
   claim_C2_bounds_cache_invariant.2.2.1 w2 ⟨5, 5⟩ (by decide) (by decide),
   claim_C2_bounds_cache_invariant.2.2.2.1 w2 ⟨⟨0, 0⟩, ⟨4, 2⟩⟩ ⟨⟨0, 0⟩, ⟨2, 1⟩⟩
     (by decide) (by decide) rfl (by decide) (by decide) (by decide) (by decide)⟩

/-- Witness for claim C4: with no selector bounds the call mutates nothing
and returns `false`, here on the empty state. -/
theorem claim_C4_witness :
    StrokesState.update_selection_for_selector ⟨[], [], [], [], none⟩ ⟨none⟩ none
      = (⟨[], [], [], [], none⟩, false) :=
  (claim_C4_selector_reports_count_change ⟨[], [], [], [], none⟩ ⟨none⟩ none).2 rfl

/-- Witness state for the resize round trip: one selected stroke with
non-degenerate cached aggregate bounds. -/
def w6 : StrokesState :=
  ⟨[(0, .shapeStroke ⟨⟨0, 0⟩, ⟨2, 1⟩⟩)], [(0, ⟨true⟩)], [(0, ⟨true⟩)], [(0, ⟨false⟩)],
   some ⟨⟨0, 0⟩, ⟨2, 1⟩⟩⟩

/-- Witness for claim C6 at a concrete non-degenerate resize pair. -/
theorem claim_C6_witness :
    (w6.resize_selection ⟨⟨1, 1⟩, ⟨5, 3⟩⟩).resize_selection ⟨⟨0, 0⟩, ⟨2, 1⟩⟩ = w6 :=
  claim_C6_resize_roundtrip w6 ⟨⟨0, 0⟩, ⟨2, 1⟩⟩ ⟨⟨1, 1⟩, ⟨5, 3⟩⟩ rfl
    (by norm_num) (by norm_num) (by norm_num) (by norm_num)

end Rnote
